import Mathlib

/-!
The record store of `proglog/internal/log/store.go`.

A shallow embedding of the append-only record store: the `store` struct, its
constructor `newStore` and its four methods `Append`, `Read`, `ReadAt` and
`Close`, together with the two standard-library objects the methods drive:
the `bufio.Writer` holding the write buffer and the `os.File` underneath it.

Conventions of the embedding.

* A byte is a `Fin 256`; a byte slice is a `List Byte`.
* `uint64` values are natural numbers reduced `% 2 ^ 64` at every arithmetic
  step of the source; the conversion `int64(x)` is `toInt64`.
* A Go `error` is an `Option Error` (`none` is `nil`).
* The mutex `mu` serialises the methods; the embedding is the sequential
  semantics of one method call at a time, so the lock has no counterpart.
* The file handle writes at the end of the file: it was opened for appending,
  or (as for a fresh file) its write offset is the file length, a property
  every write preserves. Positional reads do not move the offset.
* The storage device does not run out of space and reports no error of its
  own; the write that fails is the write to a closed handle.
* A closed handle fails every write, every second close and every positional
  read that asks for at least one byte; `os.File` itself checks only for a
  negative offset before it reads, so a positional read of no byte succeeds
  on a closed handle too.
* Memory does not run out: `make([]byte, n)` returns a slice whenever `n` is
  within the limit `maxAlloc` of the runtime, and panics above it.
-/

namespace Proglog

/-- One byte. -/
abbrev Byte := Fin 256

/-- Go errors that the store can surface. -/
inductive Error where
  | ErrClosed          -- os.ErrClosed: use of a closed file
  | EOF                -- io.EOF: positional read ran past the end of the file
  | ErrNegativeOffset  -- os.File.ReadAt with a negative offset
  | ErrShortWrite      -- io.ErrShortWrite, raised by bufio.Writer.Flush
  | ErrNotExist        -- os.Stat on a path that no longer resolves
  deriving DecidableEq, Repr

/-- Source constant `lenWidth`: the width of the length field of a record. -/
def lenWidth : Nat := 8

/-- Constant `maxAlloc` of the Go runtime on a 64-bit platform (48 address bits): `make`
panics with "len out of range" for a byte slice longer than this, which covers every length
that is not representable as an `int`. -/
def maxAlloc : Nat := 2 ^ 48

/-- Size of the buffer `bufio.NewWriter` allocates (`defaultBufSize`). -/
def defaultBufSize : Nat := 4096

/-- Conversion `int64(x)` of a `uint64`: two's complement reinterpretation. -/
def toInt64 (x : Nat) : Int :=
  if x % 2 ^ 64 < 2 ^ 63 then ((x % 2 ^ 64 : Nat) : Int) else ((x % 2 ^ 64 : Nat) : Int) - 2 ^ 64

/-- Go's `make([]byte, n)`: a zero-filled slice of length `n`. -/
def make (n : Nat) : List Byte := List.replicate n 0

namespace enc

/-- Method `binary.BigEndian.PutUint64`: the 8 bytes of `v`, most significant first. -/
def PutUint64 (v : Nat) : List Byte :=
  [Fin.ofNat (v / 2 ^ 56), Fin.ofNat (v / 2 ^ 48), Fin.ofNat (v / 2 ^ 40), Fin.ofNat (v / 2 ^ 32),
   Fin.ofNat (v / 2 ^ 24), Fin.ofNat (v / 2 ^ 16), Fin.ofNat (v / 2 ^ 8), Fin.ofNat v]

/-- Method `binary.BigEndian.Uint64`: the number whose big-endian digits are the bytes of `b`. -/
def Uint64 (b : List Byte) : Nat :=
  b.foldl (fun acc x => acc * 256 + x.val) 0

end enc

/-- The `os.File` under the store: the bytes of the file, whether the handle
has been closed, and whether the path `f.Name()` still resolves to the file
(what `os.Stat` needs). -/
structure OsFile where
  data : List Byte
  closed : Bool
  linked : Bool
  deriving DecidableEq, Repr

namespace OsFile

/-- Method `os.File.Write`: fails on a closed handle, otherwise the bytes land at the end of
the file. Returns the file, the count written and the error. -/
def Write (f : OsFile) (b : List Byte) : OsFile × Nat × Option Error :=
  if f.closed then (f, 0, some Error.ErrClosed)
  else ({ f with data := f.data ++ b }, b.length, none)

/-- Method `os.File.ReadAt`. A negative offset is refused first. Then the loop
`for len(b) > 0` issues the positional reads: a zero-length `b` reads nothing and succeeds,
on a closed handle as well; a closed handle fails the first read; otherwise the bytes
available from `off` are copied into the front of `b`, and `io.EOF` is reported when fewer
than `len(b)` were available.
Returns the buffer after the call, the count read and the error. -/
def ReadAt (f : OsFile) (b : List Byte) (off : Int) : List Byte × Nat × Option Error :=
  if off < 0 then (b, 0, some Error.ErrNegativeOffset)
  else if b.length = 0 then (b, 0, none)
  else if f.closed then (b, 0, some Error.ErrClosed)
  else
    let got := (f.data.drop off.toNat).take b.length
    (got ++ b.drop got.length, got.length,
      if got.length < b.length then some Error.EOF else none)

/-- Method `os.File.Close`: a second close fails. -/
def Close (f : OsFile) : OsFile × Option Error :=
  if f.closed then (f, some Error.ErrClosed) else ({ f with closed := true }, none)

/-- Function `os.Stat(f.Name())`, reduced to the one field the store reads: the size. -/
def Stat (f : OsFile) : Option Nat × Option Error :=
  if f.linked then (some f.data.length, none) else (none, some Error.ErrNotExist)

end OsFile

/-- The `bufio.Writer`: its sticky error `err`, the buffered bytes `buf[0:n]` (kept as the
list `buf`) and the capacity `len(buf)` (kept as `size`). The destination `wr` is the
store's own file and is passed to each method. -/
structure Writer where
  err : Option Error
  buf : List Byte
  size : Nat
  deriving DecidableEq, Repr

namespace Writer

/-- Function `bufio.NewWriter`. -/
def NewWriter : Writer := { err := none, buf := [], size := defaultBufSize }

/-- Method `Available`: unused bytes of the buffer. -/
def Available (b : Writer) : Nat := b.size - b.buf.length

/-- Method `Buffered`: bytes written into the buffer and not yet flushed. -/
def Buffered (b : Writer) : Nat := b.buf.length

/-- Method `bufio.Writer.Flush`. -/
def Flush (b : Writer) (f : OsFile) : Writer × OsFile × Option Error :=
  match b.err with
  | some e => (b, f, some e)
  | none =>
    if b.Buffered = 0 then (b, f, none)
    else
      let r := f.Write b.buf
      let n := r.2.1
      let err := if n < b.Buffered ∧ r.2.2 = none then some Error.ErrShortWrite else r.2.2
      match err with
      | some e => ({ b with buf := b.buf.drop n, err := some e }, r.1, some e)
      | none => ({ b with buf := [] }, r.1, none)

/-- State of the loop of `bufio.Writer.Write`: the writer, the file, the bytes of `p` still
to be written and the running count `nn`. -/
structure WriteState where
  b : Writer
  f : OsFile
  p : List Byte
  nn : Nat
  deriving DecidableEq, Repr

/-- The loop `for len(p) > b.Available() && b.err == nil` of `bufio.Writer.Write`,
run for at most `fuel` iterations. -/
def writeLoop : Nat → WriteState → WriteState
  | 0, st => st
  | fuel + 1, st =>
    if st.p.length > st.b.Available ∧ st.b.err = none then
      if st.b.Buffered = 0 then
        -- large write, empty buffer: write directly from p
        let r := st.f.Write st.p
        writeLoop fuel
          { b := { st.b with err := r.2.2 }, f := r.1, p := st.p.drop r.2.1, nn := st.nn + r.2.1 }
      else
        -- fill the buffer, then flush it
        let n := min st.b.Available st.p.length
        let r := ({ st.b with buf := st.b.buf ++ st.p.take n } : Writer).Flush st.f
        writeLoop fuel { b := r.1, f := r.2.1, p := st.p.drop n, nn := st.nn + n }
    else st

/-- Whether the loop of `Write` has exited at `st`. -/
def loopDone (st : WriteState) : Prop :=
  ¬ (st.p.length > st.b.Available ∧ st.b.err = none)

instance (st : WriteState) : Decidable (loopDone st) := by
  unfold loopDone; infer_instance

/-- Method `bufio.Writer.Write`. Returns the writer, the file, the count `nn` and the error.
Three iterations always exit the loop (`writeLoop_done`). -/
def Write (b : Writer) (f : OsFile) (p : List Byte) : Writer × OsFile × Nat × Option Error :=
  let st := writeLoop 3 { b := b, f := f, p := p, nn := 0 }
  match st.b.err with
  | some e => (st.b, st.f, st.nn, some e)
  | none =>
    let n := min st.b.Available st.p.length
    ({ st.b with buf := st.b.buf ++ st.p.take n }, st.f, st.nn + n, none)

end Writer

/-- Function `binary.Write(w, enc, v)` for a `uint64` value `v` and a `bufio.Writer`
destination: encode into 8 bytes and write them; only the error is returned. -/
def binaryWrite (b : Writer) (f : OsFile) (v : Nat) : Writer × OsFile × Option Error :=
  let r := b.Write f (enc.PutUint64 v)
  (r.1, r.2.1, r.2.2.2)

/-- The `store` struct: the embedded file, the write buffer and the running size. -/
structure store where
  File : OsFile
  buf : Writer
  size : Nat
  deriving DecidableEq, Repr

/-- Function `newStore`. -/
def newStore (f : OsFile) : Option store × Option Error :=
  match f.Stat with
  | (some sz, none) => (some { File := f, buf := Writer.NewWriter, size := sz % 2 ^ 64 }, none)
  | (_, err) => (none, err)

/-- Method `store.Append`. Returns the store after the call and the triple `(n, pos, err)`. -/
def Append (s : store) (p : List Byte) : store × Nat × Nat × Option Error :=
  let pos := s.size
  -- write length
  let r1 := binaryWrite s.buf s.File (p.length % 2 ^ 64)
  let s1 : store := { s with buf := r1.1, File := r1.2.1 }
  match r1.2.2 with
  | some e => (s1, 0, 0, some e)
  | none =>
    -- write data
    let r2 := s1.buf.Write s1.File p
    let s2 : store := { s1 with buf := r2.1, File := r2.2.1 }
    match r2.2.2.2 with
    | some e => (s2, 0, 0, some e)
    | none =>
      -- update size
      let w := (r2.2.2.1 + lenWidth) % 2 ^ 64
      ({ s2 with size := (s2.size + w) % 2 ^ 64 }, w, pos, none)

/-- What a call of `Read` does: it returns `(b, err)`, or the allocation
`make([]byte, L)` panics because `L` exceeds `maxAlloc`. -/
inductive ReadResult where
  | ret (b : Option (List Byte)) (err : Option Error)
  | panic
  deriving DecidableEq, Repr

/-- Method `store.Read`. Returns the store after the call and the result. -/
def Read (s : store) (pos : Nat) : store × ReadResult :=
  let r := s.buf.Flush s.File
  let s1 : store := { s with buf := r.1, File := r.2.1 }
  match r.2.2 with
  | some e => (s1, ReadResult.ret none (some e))
  | none =>
    -- read length
    let r1 := s1.File.ReadAt (make lenWidth) (toInt64 pos)
    match r1.2.2 with
    | some e => (s1, ReadResult.ret none (some e))
    | none =>
      -- read data
      let L := enc.Uint64 r1.1
      if L > maxAlloc then (s1, ReadResult.panic)
      else
        let r2 := s1.File.ReadAt (make L) (toInt64 ((pos + lenWidth) % 2 ^ 64))
        match r2.2.2 with
        | some e => (s1, ReadResult.ret none (some e))
        | none => (s1, ReadResult.ret (some r2.1) none)

/-- Method `store.ReadAt`. Returns the store, the buffer `p` after the call, the count and
the error. -/
def ReadAt (s : store) (p : List Byte) (off : Int) : store × List Byte × Nat × Option Error :=
  let r := s.buf.Flush s.File
  let s1 : store := { s with buf := r.1, File := r.2.1 }
  match r.2.2 with
  | some e => (s1, p, 0, some e)
  | none =>
    let r1 := s1.File.ReadAt p off
    (s1, r1.1, r1.2.1, r1.2.2)

/-- Method `store.Close`. -/
def Close (s : store) : store × Option Error :=
  let r := s.buf.Flush s.File
  let s1 : store := { s with buf := r.1, File := r.2.1 }
  match r.2.2 with
  | some e => (s1, some e)
  | none =>
    let r1 := s1.File.Close
    ({ s1 with File := r1.1 }, r1.2)

/-- The logical contents of the store: the bytes of the file followed by the bytes still
in the write buffer. -/
def logical (s : store) : List Byte := s.File.data ++ s.buf.buf

/-- A call on the store. -/
inductive Op where
  | append (p : List Byte)
  | read (pos : Nat)
  | readAt (p : List Byte) (off : Int)
  | close
  deriving DecidableEq, Repr

/-- The store after one call. -/
def step (s : store) : Op → store
  | Op.append p => (Append s p).1
  | Op.read pos => (Read s pos).1
  | Op.readAt p off => (ReadAt s p off).1
  | Op.close => (Close s).1

/-- The store after a sequence of calls. -/
def run (s : store) (ops : List Op) : store := ops.foldl step s

/-- Whether the call is one of `Append`, `Read`, `ReadAt`. -/
def Op.keepsOpen : Op → Bool
  | Op.close => false
  | _ => true

/-- States reachable from `newStore` over an open file handle by calls of `Append`, `Read`
and `ReadAt`. -/
inductive Reachable : store → Prop where
  | init (f : OsFile) (s : store) (hopen : f.closed = false)
      (hnew : newStore f = (some s, none)) : Reachable s
  | append (s : store) (p : List Byte) (h : Reachable s) : Reachable (Append s p).1
  | read (s : store) (pos : Nat) (h : Reachable s) : Reachable (Read s pos).1
  | readAt (s : store) (p : List Byte) (off : Int) (h : Reachable s) :
      Reachable (ReadAt s p off).1

/-- The empty file behind a fresh handle. -/
def emptyFile : OsFile := { data := [], closed := false, linked := true }

/-- The store `newStore` returns over the empty file. -/
def emptyStore : store := { File := emptyFile, buf := Writer.NewWriter, size := 0 }

/-- The bytes of "hello". -/
def hello : List Byte := [104, 101, 108, 108, 111]

/-- The bytes of "world!". -/
def world : List Byte := [119, 111, 114, 108, 100, 33]

/-- Successive calls of `Append`, one per payload: the store after the last call and the
results of the calls, in call order. -/
def appendAll : store → List (List Byte) → store × List (Nat × Nat × Option Error)
  | s, [] => (s, [])
  | s, p :: ps => ((appendAll (Append s p).1 ps).1, (Append s p).2 :: (appendAll (Append s p).1 ps).2)

/-- The positions among the results of a sequence of calls of `Append`. -/
def positions (rs : List (Nat × Nat × Option Error)) : List Nat := rs.map (fun r => r.2.1)

/-- Whether every call of the sequence returned a nil error. -/
def allOk (rs : List (Nat × Nat × Option Error)) : Prop := ∀ r ∈ rs, r.2.2 = none

instance (rs : List (Nat × Nat × Option Error)) : Decidable (allOk rs) := by
  unfold allOk; infer_instance

/-- Whether the call, made in state `s`, is anything but a successful `Append`. -/
def notAppended (s : store) : Op → Bool
  | Op.append p => (Append s p).2.2.2 != none
  | _ => true

/-- Whether no call of the sequence, run from state `s`, is a successful `Append`. -/
def noneAppended : store → List Op → Bool
  | _, [] => true
  | s, op :: ops => notAppended s op && noneAppended (step s op) ops

/-- Total number of bytes of the records of the payloads. -/
def recordBytes (ps : List (List Byte)) : Nat := (ps.map (fun p => lenWidth + p.length)).sum

/-- The file layout the specification describes: for each payload its length as 8
big-endian bytes, then the payload, with nothing in between and nothing after. -/
def layout (ps : List (List Byte)) : List Byte :=
  (ps.map (fun p => enc.PutUint64 p.length ++ p)).flatten

/-- Eight bytes `0xFF`: a payload that reads back as the length `2 ^ 64 - 1`. -/
def allOnes : List Byte := [255, 255, 255, 255, 255, 255, 255, 255]

/-- A payload whose first eight bytes read as the length 1, followed by one byte. -/
def nested : List Byte := [0, 0, 0, 0, 0, 0, 0, 1, 42]

/-- The store `newStore` returns over the empty file, closed at once. -/
def closedStore : store := (Close emptyStore).1

/-- A payload of 4089 zero bytes: one more than the buffer holds behind a length field. -/
def big : List Byte := List.replicate 4089 0

/-- The state after the iteration of the loop of `Write` that writes `p` directly. -/
def Writer.directStep (st : Writer.WriteState) : Writer.WriteState :=
  { b := { st.b with err := (st.f.Write st.p).2.2 }, f := (st.f.Write st.p).1,
    p := st.p.drop (st.f.Write st.p).2.1, nn := st.nn + (st.f.Write st.p).2.1 }

/-- The state after the iteration of the loop of `Write` that fills and flushes the buffer. -/
def Writer.fillStep (st : Writer.WriteState) : Writer.WriteState :=
  { b := (({ st.b with buf := st.b.buf ++ st.p.take (min st.b.Available st.p.length) } :
        Writer).Flush st.f).1,
    f := (({ st.b with buf := st.b.buf ++ st.p.take (min st.b.Available st.p.length) } :
        Writer).Flush st.f).2.1,
    p := st.p.drop (min st.b.Available st.p.length),
    nn := st.nn + min st.b.Available st.p.length }

/-- The bytes `D[a .. a+n)` of a byte sequence. -/
def slice (D : List Byte) (a n : Nat) : List Byte := (D.drop a).take n

/-- The store after its write buffer has been flushed into the file. -/
def flushed (s : store) : store :=
  { s with File := { s.File with data := s.File.data ++ s.buf.buf },
           buf := { s.buf with buf := [] } }

/-- What `Read` does once the flush has succeeded, as a function of the file. -/
def readFrom (f : OsFile) (pos : Nat) : ReadResult :=
  match (f.ReadAt (make lenWidth) (toInt64 pos)).2.2 with
  | some e => ReadResult.ret none (some e)
  | none =>
    if enc.Uint64 (f.ReadAt (make lenWidth) (toInt64 pos)).1 > maxAlloc then ReadResult.panic
    else
      match (f.ReadAt (make (enc.Uint64 (f.ReadAt (make lenWidth) (toInt64 pos)).1))
          (toInt64 ((pos + lenWidth) % 2 ^ 64))).2.2 with
      | some e => ReadResult.ret none (some e)
      | none => ReadResult.ret (some (f.ReadAt
          (make (enc.Uint64 (f.ReadAt (make lenWidth) (toInt64 pos)).1))
          (toInt64 ((pos + lenWidth) % 2 ^ 64))).1) none

/-- The invariant of the states reached without `Close`: no sticky error, an open file, a
buffer within its capacity, and a size that counts the logical contents. -/
structure Inv (s : store) : Prop where
  err : s.buf.err = none
  opened : s.File.closed = false
  size_eq : s.size = (logical s).length % 2 ^ 64
  fits : s.buf.buf.length ≤ s.buf.size
  cap : s.buf.size = defaultBufSize

/-- The record `Append` writes for a payload: the length field, then the payload. -/
def record (p : List Byte) : List Byte := enc.PutUint64 (p.length % 2 ^ 64) ++ p

/-- The bytes of the records of the payloads, in order. -/
def records (ps : List (List Byte)) : List Byte := (ps.map record).flatten

/-- Whether every `Append` of the sequence, run from state `s`, returned a nil error. -/
def noAppendFailed : store → List Op → Bool
  | _, [] => true
  | s, Op.append p :: ops =>
    (Append s p).2.2.2 == none && noAppendFailed (step s (Op.append p)) ops
  | s, op :: ops => noAppendFailed (step s op) ops

/-- A handle whose path no longer resolves: `os.Stat` fails on it. -/
def goneFile : OsFile := { data := [], closed := false, linked := false }

/-- The closed store with the record of "hello" in its write buffer. -/
def closedHello : store := (Append closedStore hello).1

/-- A fresh open handle on the file of a handle, as `os.OpenFile` on its path returns it. -/
def reopen (f : OsFile) : OsFile := { f with closed := false }

/-- The store as the flush of its write buffer leaves it, whether the flush succeeds or
fails. -/
def afterFlush (s : store) : store :=
  { s with buf := (s.buf.Flush s.File).1, File := (s.buf.Flush s.File).2.1 }

/-! Lemmas about the embedding, then the claims. -/

theorem enc.PutUint64_length (v : Nat) : (enc.PutUint64 v).length = 8 := rfl

theorem enc.Uint64_PutUint64 (v : Nat) (h : v < 2 ^ 64) : enc.Uint64 (enc.PutUint64 v) = v := by
  simp only [enc.Uint64, enc.PutUint64, List.foldl, Fin.ofNat]
  omega

theorem toInt64_of_lt (x : Nat) (h : x < 2 ^ 63) : toInt64 x = (x : Int) := by
  have h1 : x % 2 ^ 64 = x := Nat.mod_eq_of_lt (by omega)
  unfold toInt64
  rw [h1, if_pos h]

theorem toInt64_neg (x : Nat) (h1 : 2 ^ 63 ≤ x) (h2 : x < 2 ^ 64) : toInt64 x < 0 := by
  have h3 : x % 2 ^ 64 = x := Nat.mod_eq_of_lt h2
  have h4 : ¬ x < 2 ^ 63 := by omega
  simp only [toInt64, h3, h4, if_false]
  omega

theorem make_length (n : Nat) : (make n).length = n := by simp [make]

theorem OsFile.Write_at_end (f : OsFile) (b : List Byte) (h : f.closed = false) :
    f.Write b = ({ f with data := f.data ++ b }, b.length, none) := by
  simp [OsFile.Write, h]

theorem OsFile.Write_closed (f : OsFile) (b : List Byte) (h : f.closed = true) :
    f.Write b = (f, 0, some Error.ErrClosed) := by
  simp [OsFile.Write, h]

/-- Every write to the file either takes all the bytes or takes none and fails. -/
theorem OsFile.Write_cases (f : OsFile) (b : List Byte) :
    ((f.Write b).2.1 = b.length ∧ (f.Write b).2.2 = none) ∨
      ((f.Write b).2.1 = 0 ∧ (f.Write b).2.2 ≠ none) := by
  cases h : f.closed
  · left; simp [OsFile.Write_at_end f b h]
  · right; simp [OsFile.Write_closed f b h]

theorem Writer.Flush_open (b : Writer) (f : OsFile) (hb : b.err = none) (hf : f.closed = false) :
    b.Flush f = ({ b with buf := [] }, { f with data := f.data ++ b.buf }, none) := by
  obtain ⟨err, buf, size⟩ := b
  obtain ⟨data, closed, linked⟩ := f
  simp only at hb hf
  subst hb hf
  cases buf with
  | nil => simp [Writer.Flush, Writer.Buffered]
  | cons x xs => simp [Writer.Flush, Writer.Buffered, OsFile.Write]

/-- After a flush the writer has an error or an empty buffer. -/
theorem Writer.Flush_cases (b : Writer) (f : OsFile) :
    (b.Flush f).1.err ≠ none ∨ ((b.Flush f).1.err = none ∧ (b.Flush f).1.buf = []) := by
  obtain ⟨err, buf, size⟩ := b
  cases err with
  | some e => left; simp [Writer.Flush]
  | none =>
    cases h : f.closed
    · right; simp [Writer.Flush_open ⟨none, buf, size⟩ f rfl h]
    · cases buf with
      | nil => right; simp [Writer.Flush, Writer.Buffered]
      | cons x xs => left; simp [Writer.Flush, Writer.Buffered, OsFile.Write_closed f _ h]

theorem Writer.writeLoop_exit (n : Nat) (st : Writer.WriteState) (h : Writer.loopDone st) :
    Writer.writeLoop n st = st := by
  cases n with
  | zero => rfl
  | succ n =>
    unfold Writer.loopDone at h
    simp only [Writer.writeLoop, if_neg h]

theorem Writer.writeLoop_direct (n : Nat) (st : Writer.WriteState) (h : ¬ Writer.loopDone st)
    (h0 : st.b.Buffered = 0) :
    Writer.writeLoop (n + 1) st = Writer.writeLoop n (Writer.directStep st) := by
  unfold Writer.loopDone at h
  simp only [not_not] at h
  simp only [Writer.writeLoop, if_pos h, if_pos h0, Writer.directStep]

theorem Writer.writeLoop_fill (n : Nat) (st : Writer.WriteState) (h : ¬ Writer.loopDone st)
    (h0 : st.b.Buffered ≠ 0) :
    Writer.writeLoop (n + 1) st = Writer.writeLoop n (Writer.fillStep st) := by
  unfold Writer.loopDone at h
  simp only [not_not] at h
  simp only [Writer.writeLoop, if_pos h, if_neg h0, Writer.fillStep]

theorem Writer.directStep_done (st : Writer.WriteState) :
    Writer.loopDone (Writer.directStep st) := by
  unfold Writer.loopDone Writer.directStep
  rcases OsFile.Write_cases st.f st.p with ⟨h1, h2⟩ | ⟨h1, h2⟩
  · simp [h1]
  · simp [h2]

theorem Writer.fillStep_cases (st : Writer.WriteState) :
    Writer.loopDone (Writer.fillStep st) ∨ (Writer.fillStep st).b.Buffered = 0 := by
  rcases Writer.Flush_cases
    { st.b with buf := st.b.buf ++ st.p.take (min st.b.Available st.p.length) } st.f with h | ⟨_, h⟩
  · left
    unfold Writer.loopDone
    intro hc
    exact h hc.2
  · right
    simp only [Writer.fillStep, Writer.Buffered, h, List.length_nil]

/-- The loop of `Write` has exited after three iterations, whatever state it starts in. -/
theorem Writer.writeLoop_done (st : Writer.WriteState) :
    Writer.loopDone (Writer.writeLoop 3 st) := by
  by_cases h : Writer.loopDone st
  · rw [Writer.writeLoop_exit 3 st h]; exact h
  · by_cases h0 : st.b.Buffered = 0
    · rw [Writer.writeLoop_direct 2 st h h0,
        Writer.writeLoop_exit 2 _ (Writer.directStep_done st)]
      exact Writer.directStep_done st
    · rw [Writer.writeLoop_fill 2 st h h0]
      by_cases h1 : Writer.loopDone (Writer.fillStep st)
      · rw [Writer.writeLoop_exit 2 _ h1]; exact h1
      · have h2 : (Writer.fillStep st).b.Buffered = 0 :=
          (Writer.fillStep_cases st).resolve_left h1
        rw [Writer.writeLoop_direct 1 _ h1 h2,
          Writer.writeLoop_exit 1 _ (Writer.directStep_done _)]
        exact Writer.directStep_done _

/-- Loop rule for `Write`: a property that holds at the start and is kept by both kinds of
iteration holds when the loop has exited. -/
theorem Writer.writeLoop_rule (P : Writer.WriteState → Prop) (st : Writer.WriteState)
    (h0 : P st)
    (hd : ∀ s, P s → ¬ Writer.loopDone s → s.b.Buffered = 0 → P (Writer.directStep s))
    (hf : ∀ s, P s → ¬ Writer.loopDone s → s.b.Buffered ≠ 0 → P (Writer.fillStep s)) :
    P (Writer.writeLoop 3 st) := by
  by_cases h : Writer.loopDone st
  · rw [Writer.writeLoop_exit 3 st h]; exact h0
  · by_cases hb : st.b.Buffered = 0
    · rw [Writer.writeLoop_direct 2 st h hb,
        Writer.writeLoop_exit 2 _ (Writer.directStep_done st)]
      exact hd st h0 h hb
    · rw [Writer.writeLoop_fill 2 st h hb]
      have h1 := hf st h0 h hb
      by_cases h2 : Writer.loopDone (Writer.fillStep st)
      · rw [Writer.writeLoop_exit 2 _ h2]; exact h1
      · have h3 : (Writer.fillStep st).b.Buffered = 0 :=
          (Writer.fillStep_cases st).resolve_left h2
        rw [Writer.writeLoop_direct 1 _ h2 h3,
          Writer.writeLoop_exit 1 _ (Writer.directStep_done _)]
        exact hd _ h1 h2 h3

theorem Writer.err_of_not_done (s : Writer.WriteState) (h : ¬ Writer.loopDone s) :
    s.b.err = none ∧ s.b.Available < s.p.length := by
  unfold Writer.loopDone at h
  simp only [not_not] at h
  exact ⟨h.2, h.1⟩

/-- When the loop of `Write` ends without an error, the bytes counted and the bytes left
add up to the bytes given. -/
theorem Writer.writeLoop_count (st : Writer.WriteState) :
    (Writer.writeLoop 3 st).b.err = none →
      (Writer.writeLoop 3 st).nn + (Writer.writeLoop 3 st).p.length = st.nn + st.p.length := by
  apply Writer.writeLoop_rule
    (fun s => s.b.err = none → s.nn + s.p.length = st.nn + st.p.length) st
  · intro _; rfl
  · intro s hP hnd _ herr
    have hs := hP (Writer.err_of_not_done s hnd).1
    simp only [Writer.directStep] at herr ⊢
    rcases OsFile.Write_cases s.f s.p with ⟨h1, _⟩ | ⟨_, h2⟩
    · simp only [h1, List.drop_length, List.length_nil]; omega
    · exact absurd herr h2
  · intro s hP hnd _ _
    have hs := hP (Writer.err_of_not_done s hnd).1
    simp only [Writer.fillStep, List.length_drop]
    omega

/-- The loop of `Write` leaves the capacity of the buffer, and the closed and linked flags
of the file, as they were. -/
theorem Writer.writeLoop_frame (st : Writer.WriteState) :
    (Writer.writeLoop 3 st).b.size = st.b.size ∧
      (Writer.writeLoop 3 st).f.closed = st.f.closed ∧
      (Writer.writeLoop 3 st).f.linked = st.f.linked := by
  apply Writer.writeLoop_rule
    (fun s => s.b.size = st.b.size ∧ s.f.closed = st.f.closed ∧ s.f.linked = st.f.linked) st
  · exact ⟨rfl, rfl, rfl⟩
  · intro s hP _ _
    refine ⟨hP.1, ?_, ?_⟩
    · rw [← hP.2.1]; simp only [Writer.directStep, OsFile.Write]; split <;> rfl
    · rw [← hP.2.2]; simp only [Writer.directStep, OsFile.Write]; split <;> rfl
  · intro s hP _ _
    have key : ∀ (b : Writer) (f : OsFile), (b.Flush f).1.size = b.size ∧
        (b.Flush f).2.1.closed = f.closed ∧ (b.Flush f).2.1.linked = f.linked := by
      intro b f
      obtain ⟨err, buf, size⟩ := b
      cases err with
      | some e => simp [Writer.Flush]
      | none =>
        cases hc : f.closed
        · simp [Writer.Flush_open ⟨none, buf, size⟩ f rfl hc, hc]
        · cases buf with
          | nil => simp [Writer.Flush, Writer.Buffered, hc]
          | cons x xs => simp [Writer.Flush, Writer.Buffered, OsFile.Write_closed f _ hc, hc]
    have k := key { s.b with buf := s.b.buf ++ s.p.take (min s.b.Available s.p.length) } s.f
    exact ⟨k.1.trans hP.1, k.2.1.trans hP.2.1, k.2.2.trans hP.2.2⟩

/-- A `Write` that returns no error reports all of `p` written. -/
theorem Writer.Write_count (b : Writer) (f : OsFile) (p : List Byte)
    (h : (b.Write f p).2.2.2 = none) : (b.Write f p).2.2.1 = p.length := by
  have hd := Writer.writeLoop_done { b := b, f := f, p := p, nn := 0 }
  have hc := Writer.writeLoop_count { b := b, f := f, p := p, nn := 0 }
  unfold Writer.Write at h ⊢
  cases he : (Writer.writeLoop 3 { b := b, f := f, p := p, nn := 0 }).b.err with
  | some e => simp [he] at h
  | none =>
    have hlen : (Writer.writeLoop 3 { b := b, f := f, p := p, nn := 0 }).p.length ≤
        (Writer.writeLoop 3 { b := b, f := f, p := p, nn := 0 }).b.Available := by
      unfold Writer.loopDone at hd
      by_contra hlt
      exact hd ⟨by omega, he⟩
    have := hc he
    simp only [he, Nat.min_eq_right hlen]
    simpa using this

/-- On an open file and a writer without error, the loop of `Write` moves bytes from the
buffer and from `p` into the file and loses none. -/
theorem Writer.writeLoop_open (st : Writer.WriteState) (hb : st.b.err = none)
    (hf : st.f.closed = false) :
    (Writer.writeLoop 3 st).b.err = none ∧
      (Writer.writeLoop 3 st).f.data ++ (Writer.writeLoop 3 st).b.buf ++
          (Writer.writeLoop 3 st).p = st.f.data ++ st.b.buf ++ st.p ∧
      ((Writer.writeLoop 3 st).b.buf.length ≤ st.b.buf.length ∨
          (Writer.writeLoop 3 st).b.buf = []) ∧
      (Writer.writeLoop 3 st).f.closed = false := by
  apply Writer.writeLoop_rule
    (fun s => s.b.err = none ∧ s.f.data ++ s.b.buf ++ s.p = st.f.data ++ st.b.buf ++ st.p ∧
      (s.b.buf.length ≤ st.b.buf.length ∨ s.b.buf = []) ∧ s.f.closed = false) st
  · exact ⟨hb, rfl, Or.inl (le_refl _), hf⟩
  · intro s hP _ h0
    obtain ⟨_, hD, hbuf, hc⟩ := hP
    have hnil : s.b.buf = [] := List.length_eq_zero.mp h0
    refine ⟨?_, ?_, ?_, ?_⟩
    · simp only [Writer.directStep, OsFile.Write_at_end s.f s.p hc]
    · simp only [Writer.directStep, OsFile.Write_at_end s.f s.p hc, List.drop_length,
        List.append_nil]
      rw [← hD, hnil]; simp
    · simpa only [Writer.directStep] using hbuf
    · simpa only [Writer.directStep, OsFile.Write_at_end s.f s.p hc] using hc
  · intro s hP _ _
    obtain ⟨he, hD, _, hc⟩ := hP
    have hfl := Writer.Flush_open
      { s.b with buf := s.b.buf ++ s.p.take (min s.b.Available s.p.length) } s.f he hc
    refine ⟨?_, ?_, ?_, ?_⟩
    · simpa only [Writer.fillStep, hfl] using he
    · simp only [Writer.fillStep, hfl, List.append_nil]
      rw [← hD, List.append_assoc, List.append_assoc, List.append_assoc, List.take_append_drop]
    · right; simp only [Writer.fillStep, hfl]
    · simpa only [Writer.fillStep, hfl] using hc

/-- On an open file and a writer without error, `Write` succeeds, reports `len(p)` bytes and
extends the logical contents by `p`; the buffer stays within its capacity. -/
theorem Writer.Write_open (b : Writer) (f : OsFile) (p : List Byte) (hb : b.err = none)
    (hf : f.closed = false) :
    (b.Write f p).2.2.2 = none ∧ (b.Write f p).2.2.1 = p.length ∧
      (b.Write f p).1.err = none ∧ (b.Write f p).2.1.closed = false ∧
      (b.Write f p).2.1.data ++ (b.Write f p).1.buf = f.data ++ b.buf ++ p ∧
      (b.Write f p).1.size = b.size ∧ (b.Write f p).2.1.linked = f.linked ∧
      (b.buf.length ≤ b.size → (b.Write f p).1.buf.length ≤ (b.Write f p).1.size) := by
  have hd := Writer.writeLoop_done { b := b, f := f, p := p, nn := 0 }
  have ho := Writer.writeLoop_open { b := b, f := f, p := p, nn := 0 } hb hf
  have hfr := Writer.writeLoop_frame { b := b, f := f, p := p, nn := 0 }
  obtain ⟨he, hD, hbuf, hc⟩ := ho
  obtain ⟨hsz, _, hl⟩ := hfr
  have hlen : (Writer.writeLoop 3 { b := b, f := f, p := p, nn := 0 }).p.length ≤
      (Writer.writeLoop 3 { b := b, f := f, p := p, nn := 0 }).b.Available := by
    unfold Writer.loopDone at hd
    by_contra hlt
    exact hd ⟨by omega, he⟩
  have herr : (b.Write f p).2.2.2 = none := by
    simp only [Writer.Write, he]
  refine ⟨herr, Writer.Write_count b f p herr, ?_, ?_, ?_, ?_, ?_, ?_⟩
  · simp only [Writer.Write, he]
  · simpa only [Writer.Write, he] using hc
  · simp only [Writer.Write, he, Nat.min_eq_right hlen, List.take_length]
    rw [← List.append_assoc]; exact hD
  · simpa only [Writer.Write, he] using hsz
  · simpa only [Writer.Write, he] using hl
  · intro hfit
    simp only [Writer.Write, he, Nat.min_eq_right hlen, List.take_length, List.length_append]
    simp only [Writer.Available] at hlen
    simp only at hsz
    rcases hbuf with h1 | h1
    · simp only at h1; omega
    · rw [h1] at hlen ⊢; simp only [List.length_nil] at hlen ⊢; omega

theorem slice_length (D : List Byte) (a n : Nat) (h : a + n ≤ D.length) :
    (slice D a n).length = n := by
  simp only [slice, List.length_take, List.length_drop]
  omega

theorem slice_append (D E : List Byte) (a n : Nat) (h : a + n ≤ D.length) :
    slice (D ++ E) a n = slice D a n := by
  unfold slice
  rw [List.drop_append_of_le_length (by omega), List.take_append_of_le_length]
  simp only [List.length_drop]; omega

/-- A positional read that lies inside the file fills the whole buffer. -/
theorem OsFile.ReadAt_full (f : OsFile) (b : List Byte) (off : Nat) (hc : f.closed = false)
    (h : off + b.length ≤ f.data.length) :
    f.ReadAt b (off : Int) = (slice f.data off b.length, b.length, none) := by
  have hneg : ¬ ((off : Int) < 0) := by omega
  by_cases hb : b.length = 0
  · have hnil : b = [] := List.length_eq_zero.mp hb
    subst hnil
    simp [OsFile.ReadAt, slice]
  · have hl : ((f.data.drop off).take b.length).length = b.length :=
      slice_length f.data off _ h
    simp only [OsFile.ReadAt, hc, hneg, hb, Bool.false_eq_true, if_false, Int.toNat_ofNat, hl,
      List.drop_length, List.append_nil, lt_self_iff_false, slice]

/-- A positional read that runs past the end of the file fails with `io.EOF`. -/
theorem OsFile.ReadAt_short (f : OsFile) (b : List Byte) (off : Nat) (hc : f.closed = false)
    (hb : 0 < b.length) (h : f.data.length < off + b.length) :
    (f.ReadAt b (off : Int)).2.2 = some Error.EOF := by
  have hneg : ¬ ((off : Int) < 0) := by omega
  have hb0 : ¬ b.length = 0 := by omega
  have hl : ((f.data.drop off).take b.length).length < b.length := by
    simp only [List.length_take, List.length_drop]; omega
  simp only [OsFile.ReadAt, hc, hneg, hb0, Bool.false_eq_true, if_false, Int.toNat_ofNat, hl,
    if_true]

/-- A positional read at a negative offset fails. -/
theorem OsFile.ReadAt_neg (f : OsFile) (b : List Byte) (off : Int)
    (h : off < 0) : f.ReadAt b off = (b, 0, some Error.ErrNegativeOffset) := by
  simp only [OsFile.ReadAt, h, if_true]

/-- A positional read of at least one byte on a closed handle fails. -/
theorem OsFile.ReadAt_closed (f : OsFile) (b : List Byte) (off : Int) (hc : f.closed = true)
    (hb : 0 < b.length) : ∃ e, f.ReadAt b off = (b, 0, some e) := by
  have hb0 : ¬ b.length = 0 := by omega
  by_cases hneg : off < 0
  · exact ⟨Error.ErrNegativeOffset, OsFile.ReadAt_neg f b off hneg⟩
  · exact ⟨Error.ErrClosed, by simp only [OsFile.ReadAt, hneg, hb0, hc, if_false, if_true]⟩

/-- A positional read of no byte at a valid offset succeeds, whatever the handle. -/
theorem OsFile.ReadAt_nil (f : OsFile) (off : Int) (h : 0 ≤ off) :
    f.ReadAt [] off = ([], 0, none) := by
  have hneg : ¬ off < 0 := by omega
  simp [OsFile.ReadAt, hneg]

/-- A positional read either fills the buffer or fails; one that took a byte was made on an
open handle. -/
theorem OsFile.ReadAt_ok (f : OsFile) (b : List Byte) (off : Int)
    (h : (f.ReadAt b off).2.2 = none) :
    (0 < b.length → f.closed = false) ∧ 0 ≤ off ∧
      (f.ReadAt b off).1 = slice f.data off.toNat b.length ∧
      (slice f.data off.toNat b.length).length = b.length := by
  unfold OsFile.ReadAt at h ⊢
  by_cases hneg : off < 0
  · simp [hneg] at h
  · by_cases hb : b.length = 0
    · have hnil : b = [] := List.length_eq_zero.mp hb
      subst hnil
      refine ⟨fun h0 => absurd h0 (by simp), by omega, ?_, ?_⟩ <;> simp [hneg, slice]
    · cases hc : f.closed
      · simp only [hc, hneg, hb, Bool.false_eq_true, if_false] at h ⊢
        by_cases hl : ((f.data.drop off.toNat).take b.length).length < b.length
        · simp only [if_pos hl] at h
          exact absurd h (by simp)
        · have hlen : ((f.data.drop off.toNat).take b.length).length = b.length := by
            have := List.length_take_le b.length (f.data.drop off.toNat)
            omega
          refine ⟨fun _ => trivial, by omega, ?_, hlen⟩
          simp only [slice, hlen, List.drop_length, List.append_nil]
      · simp [hc, hneg, hb] at h

theorem Read_of_flush (s : store) (pos : Nat) (h : (s.buf.Flush s.File).2.2 = none) :
    Read s pos = ({ s with buf := (s.buf.Flush s.File).1, File := (s.buf.Flush s.File).2.1 },
      readFrom (s.buf.Flush s.File).2.1 pos) := by
  simp only [Read, h, readFrom]
  split
  · rfl
  · split
    · rfl
    · split <;> rfl

theorem Read_open (s : store) (pos : Nat) (h : Inv s) :
    Read s pos = (flushed s, readFrom (flushed s).File pos) := by
  have hfl := Writer.Flush_open s.buf s.File h.err h.opened
  rw [Read_of_flush s pos (by rw [hfl])]
  simp only [hfl, flushed]

theorem ReadAt_open (s : store) (p : List Byte) (off : Int) (h : Inv s) :
    ReadAt s p off = (flushed s, (flushed s).File.ReadAt p off) := by
  have hfl := Writer.Flush_open s.buf s.File h.err h.opened
  simp only [ReadAt, hfl, flushed]

theorem logical_flushed (s : store) : logical (flushed s) = logical s := by
  simp [logical, flushed]

theorem flushed_data (s : store) : (flushed s).File.data = logical s := rfl

theorem Inv_flushed (s : store) (h : Inv s) : Inv (flushed s) := by
  refine ⟨h.err, h.opened, ?_, ?_, h.cap⟩
  · rw [logical_flushed]; exact h.size_eq
  · simp [flushed]

theorem record_length (p : List Byte) : (record p).length = lenWidth + p.length := by
  simp [record, enc.PutUint64_length, lenWidth]

/-- Failure of the write of the length field: `(0, 0, err)`, size untouched. -/
theorem Append_of_len_err (s : store) (p : List Byte) (e : Error)
    (h : (binaryWrite s.buf s.File (p.length % 2 ^ 64)).2.2 = some e) :
    (Append s p).2 = (0, 0, some e) ∧ (Append s p).1.size = s.size := by
  simp only [Append, h, and_self]

/-- Failure of the write of the payload: `(0, 0, err)`, size untouched. -/
theorem Append_of_data_err (s : store) (p : List Byte) (e : Error)
    (h1 : (binaryWrite s.buf s.File (p.length % 2 ^ 64)).2.2 = none)
    (h2 : ((binaryWrite s.buf s.File (p.length % 2 ^ 64)).1.Write
      (binaryWrite s.buf s.File (p.length % 2 ^ 64)).2.1 p).2.2.2 = some e) :
    (Append s p).2 = (0, 0, some e) ∧ (Append s p).1.size = s.size := by
  simp only [Append, h1, h2, and_self]

/-- Success of both writes: the count, the position and the new size. -/
theorem Append_of_ok (s : store) (p : List Byte)
    (h1 : (binaryWrite s.buf s.File (p.length % 2 ^ 64)).2.2 = none)
    (h2 : ((binaryWrite s.buf s.File (p.length % 2 ^ 64)).1.Write
      (binaryWrite s.buf s.File (p.length % 2 ^ 64)).2.1 p).2.2.2 = none) :
    (Append s p).2 = ((p.length + lenWidth) % 2 ^ 64, s.size, none) ∧
      (Append s p).1.size = (s.size + (p.length + lenWidth) % 2 ^ 64) % 2 ^ 64 := by
  have hn := Writer.Write_count _ _ _ h2
  simp only [Append, h1, h2, hn, and_self]

/-- The three ways a call of `Append` can go. -/
theorem Append_cases (s : store) (p : List Byte) :
    (∃ e, (binaryWrite s.buf s.File (p.length % 2 ^ 64)).2.2 = some e ∧
        (Append s p).2 = (0, 0, some e) ∧ (Append s p).1.size = s.size) ∨
    (∃ e, (binaryWrite s.buf s.File (p.length % 2 ^ 64)).2.2 = none ∧
        ((binaryWrite s.buf s.File (p.length % 2 ^ 64)).1.Write
          (binaryWrite s.buf s.File (p.length % 2 ^ 64)).2.1 p).2.2.2 = some e ∧
        (Append s p).2 = (0, 0, some e) ∧ (Append s p).1.size = s.size) ∨
    ((binaryWrite s.buf s.File (p.length % 2 ^ 64)).2.2 = none ∧
        ((binaryWrite s.buf s.File (p.length % 2 ^ 64)).1.Write
          (binaryWrite s.buf s.File (p.length % 2 ^ 64)).2.1 p).2.2.2 = none ∧
        (Append s p).2 = ((p.length + lenWidth) % 2 ^ 64, s.size, none) ∧
        (Append s p).1.size = (s.size + (p.length + lenWidth) % 2 ^ 64) % 2 ^ 64) := by
  cases h1 : (binaryWrite s.buf s.File (p.length % 2 ^ 64)).2.2 with
  | some e => exact Or.inl ⟨e, rfl, Append_of_len_err s p e h1⟩
  | none =>
    cases h2 : ((binaryWrite s.buf s.File (p.length % 2 ^ 64)).1.Write
        (binaryWrite s.buf s.File (p.length % 2 ^ 64)).2.1 p).2.2.2 with
    | some e => exact Or.inr (Or.inl ⟨e, rfl, rfl, Append_of_data_err s p e h1 h2⟩)
    | none => exact Or.inr (Or.inr ⟨rfl, rfl, Append_of_ok s p h1 h2⟩)

/-- On a state that satisfies the invariant, `Append` succeeds, extends the logical contents
by one record and keeps the invariant. -/
theorem Append_open (s : store) (p : List Byte) (h : Inv s) :
    (Append s p).2 = ((p.length + lenWidth) % 2 ^ 64, s.size, none) ∧
      logical (Append s p).1 = logical s ++ record p ∧ Inv (Append s p).1 := by
  have W1 := Writer.Write_open s.buf s.File (enc.PutUint64 (p.length % 2 ^ 64)) h.err h.opened
  obtain ⟨e1, _, b1, c1, D1, z1, _, f1⟩ := W1
  have h1 : (binaryWrite s.buf s.File (p.length % 2 ^ 64)).2.2 = none := e1
  have W2 := Writer.Write_open (binaryWrite s.buf s.File (p.length % 2 ^ 64)).1
    (binaryWrite s.buf s.File (p.length % 2 ^ 64)).2.1 p b1 c1
  obtain ⟨e2, n2, b2, c2, D2, z2, _, f2⟩ := W2
  have hok := Append_of_ok s p h1 e2
  have hlog : logical (Append s p).1 = logical s ++ record p := by
    simp only [Append, h1, e2, logical]
    rw [D2]
    simp only [binaryWrite]
    rw [D1, record]
    simp only [List.append_assoc]
  refine ⟨hok.1, hlog, ?_⟩
  have hbuf : (Append s p).1.buf = ((binaryWrite s.buf s.File (p.length % 2 ^ 64)).1.Write
      (binaryWrite s.buf s.File (p.length % 2 ^ 64)).2.1 p).1 := by
    simp only [Append, h1, e2]
  have hfile : (Append s p).1.File = ((binaryWrite s.buf s.File (p.length % 2 ^ 64)).1.Write
      (binaryWrite s.buf s.File (p.length % 2 ^ 64)).2.1 p).2.1 := by
    simp only [Append, h1, e2]
  refine ⟨by rw [hbuf]; exact b2, by rw [hfile]; exact c2, ?_, ?_, ?_⟩
  · rw [hok.2, hlog, h.size_eq, List.length_append, record_length, lenWidth]
    omega
  · rw [hbuf]; exact f2 (by rw [show (binaryWrite s.buf s.File (p.length % 2 ^ 64)).1 =
      (s.buf.Write s.File (enc.PutUint64 (p.length % 2 ^ 64))).1 from rfl]; exact f1 h.fits)
  · rw [hbuf, z2]
    exact (z1.trans h.cap)

theorem slice_length_min (D : List Byte) (a n : Nat) :
    (slice D a n).length = min n (D.length - a) := by
  simp only [slice, List.length_take, List.length_drop]

theorem newStore_ok (f : OsFile) (s : store) (h : newStore f = (some s, none)) :
    s = { File := f, buf := Writer.NewWriter, size := f.data.length % 2 ^ 64 } ∧
      f.linked = true := by
  unfold newStore OsFile.Stat at h
  cases hl : f.linked
  · simp [hl] at h
  · simp only [hl, if_true, Prod.mk.injEq, Option.some.injEq, and_true] at h
    exact ⟨h.symm, rfl⟩

theorem newStore_inv (f : OsFile) (s : store) (hopen : f.closed = false)
    (h : newStore f = (some s, none)) : Inv s ∧ logical s = f.data := by
  obtain ⟨rfl, _⟩ := newStore_ok f s h
  refine ⟨⟨rfl, hopen, ?_, ?_, rfl⟩, ?_⟩
  · simp [logical, Writer.NewWriter]
  · simp [Writer.NewWriter]
  · simp [logical, Writer.NewWriter]

/-- Every state reached without `Close` satisfies the invariant. -/
theorem Reachable.inv {s : store} (h : Reachable s) : Inv s := by
  induction h with
  | init f s hopen hnew => exact (newStore_inv f s hopen hnew).1
  | append s p _ ih => exact (Append_open s p ih).2.2
  | read s pos _ ih => rw [Read_open s pos ih]; exact Inv_flushed s ih
  | readAt s p off _ ih => rw [ReadAt_open s p off ih]; exact Inv_flushed s ih

/-- Reference semantics of the read path on an open file: both positional reads lie inside
the file and the payload is the slice the length field announces. -/
theorem readFrom_inside (f : OsFile) (pos : Nat) (hc : f.closed = false)
    (hlen : f.data.length < 2 ^ 63) (h8 : pos + lenWidth ≤ f.data.length)
    (hA : enc.Uint64 (slice f.data pos lenWidth) ≤ maxAlloc)
    (hL : pos + lenWidth + enc.Uint64 (slice f.data pos lenWidth) ≤ f.data.length) :
    readFrom f pos =
      ReadResult.ret (some (slice f.data (pos + lenWidth)
        (enc.Uint64 (slice f.data pos lenWidth)))) none := by
  have hw : lenWidth = 8 := rfl
  have hp : toInt64 pos = (pos : Int) := toInt64_of_lt pos (by omega)
  have hp8 : toInt64 ((pos + lenWidth) % 2 ^ 64) = ((pos + lenWidth : Nat) : Int) := by
    rw [Nat.mod_eq_of_lt (by omega)]
    exact toInt64_of_lt _ (by omega)
  have r1 := OsFile.ReadAt_full f (make lenWidth) pos hc (by rw [make_length]; exact h8)
  rw [make_length] at r1
  have hmax : ¬ enc.Uint64 (slice f.data pos lenWidth) > maxAlloc := by omega
  have r2 := OsFile.ReadAt_full f (make (enc.Uint64 (slice f.data pos lenWidth)))
    (pos + lenWidth) hc (by rw [make_length]; exact hL)
  rw [make_length] at r2
  unfold readFrom
  rw [hp, hp8, r1]
  simp only [hmax, if_false, r2]

/-- A read that succeeded returned exactly the bytes the length field announces, all of
them inside the file. -/
theorem readFrom_some (f : OsFile) (pos : Nat) (hpos : pos < 2 ^ 64) (b : List Byte)
    (h : readFrom f pos = ReadResult.ret (some b) none) :
    f.closed = false ∧ pos + lenWidth ≤ f.data.length ∧ pos + lenWidth < 2 ^ 63 ∧
      enc.Uint64 (slice f.data pos lenWidth) ≤ maxAlloc ∧
      b = slice f.data (pos + lenWidth) (enc.Uint64 (slice f.data pos lenWidth)) ∧
      b.length = enc.Uint64 (slice f.data pos lenWidth) ∧
      (0 < enc.Uint64 (slice f.data pos lenWidth) →
        pos + lenWidth + enc.Uint64 (slice f.data pos lenWidth) ≤ f.data.length) := by
  have hw : lenWidth = 8 := rfl
  unfold readFrom at h
  split at h
  · simp at h
  · rename_i h1
    obtain ⟨hc, hoff, hb1, hl1⟩ := OsFile.ReadAt_ok f _ _ h1
    have hpos63 : pos < 2 ^ 63 := by
      by_contra hge
      have := toInt64_neg pos (by omega) hpos
      omega
    have e1 : (toInt64 pos).toNat = pos := by
      rw [toInt64_of_lt pos hpos63, Int.toNat_ofNat]
    rw [e1, make_length] at hb1 hl1
    have h8 : pos + lenWidth ≤ f.data.length := by
      rw [slice_length_min] at hl1
      omega
    rw [hb1] at h
    split at h
    · simp at h
    · rename_i hmax
      split at h
      · simp at h
      · rename_i h2
        obtain ⟨_, hoff2, hb2, hl2⟩ := OsFile.ReadAt_ok f _ _ h2
        have hp8lt : pos + lenWidth < 2 ^ 63 := by
          by_contra hge
          by_cases hwrap : pos + lenWidth < 2 ^ 64
          · rw [Nat.mod_eq_of_lt hwrap] at hoff2
            have := toInt64_neg (pos + lenWidth) (by omega) hwrap
            omega
          · omega
        have e2 : (toInt64 ((pos + lenWidth) % 2 ^ 64)).toNat = pos + lenWidth := by
          rw [Nat.mod_eq_of_lt (by omega), toInt64_of_lt _ hp8lt, Int.toNat_ofNat]
        rw [e2, make_length] at hb2 hl2
        rw [hb2] at h
        have hb : slice f.data (pos + lenWidth) (enc.Uint64 (slice f.data pos lenWidth)) = b := by
          simpa using h
        refine ⟨hc (by rw [make_length]; decide), h8, hp8lt, by omega, hb.symm, ?_, ?_⟩
        · rw [← hb]; exact hl2
        · intro hpos0
          rw [slice_length_min] at hl2
          omega

/-- A read whose length field or payload runs past the end of an open file, or whose offset
is not a valid `int64` offset, returns an error and no payload. -/
theorem readFrom_short (f : OsFile) (pos : Nat) (hc : f.closed = false) (hpos : pos < 2 ^ 64)
    (h : f.data.length < pos + lenWidth ∨ 2 ^ 63 ≤ pos ∨
      (f.data.length < pos + lenWidth + enc.Uint64 (slice f.data pos lenWidth) ∧
        enc.Uint64 (slice f.data pos lenWidth) ≤ maxAlloc)) :
    ∃ e, readFrom f pos = ReadResult.ret none (some e) := by
  have hw : lenWidth = 8 := rfl
  by_cases h63 : pos < 2 ^ 63
  · have hp : toInt64 pos = (pos : Int) := toInt64_of_lt pos h63
    by_cases h8 : f.data.length < pos + lenWidth
    · have r1 := OsFile.ReadAt_short f (make lenWidth) pos hc
        (by rw [make_length]; omega) (by rw [make_length]; exact h8)
      refine ⟨Error.EOF, ?_⟩
      unfold readFrom
      rw [hp, r1]
    · have hL := (h.resolve_left h8).resolve_left (by omega)
      have r1 := OsFile.ReadAt_full f (make lenWidth) pos hc (by rw [make_length]; omega)
      rw [make_length] at r1
      have hmax : ¬ enc.Uint64 (slice f.data pos lenWidth) > maxAlloc := by omega
      have hmod : (pos + lenWidth) % 2 ^ 64 = pos + lenWidth := Nat.mod_eq_of_lt (by omega)
      by_cases h863 : pos + lenWidth < 2 ^ 63
      · have hp8 : toInt64 (pos + lenWidth) = ((pos + lenWidth : Nat) : Int) :=
          toInt64_of_lt _ h863
        have r2 := OsFile.ReadAt_short f (make (enc.Uint64 (slice f.data pos lenWidth)))
          (pos + lenWidth) hc (by rw [make_length]; omega) (by rw [make_length]; exact hL.1)
        refine ⟨Error.EOF, ?_⟩
        unfold readFrom
        rw [hp, r1, hmod, hp8]
        simp only [hmax, if_false, r2]
      · have hneg := toInt64_neg (pos + lenWidth) (by omega) (by omega)
        have r2 := OsFile.ReadAt_neg f (make (enc.Uint64 (slice f.data pos lenWidth)))
          (toInt64 (pos + lenWidth)) hneg
        refine ⟨Error.ErrNegativeOffset, ?_⟩
        unfold readFrom
        rw [hp, r1, hmod]
        simp only [hmax, if_false, r2]
  · have hneg := toInt64_neg pos (by omega) hpos
    have r1 := OsFile.ReadAt_neg f (make lenWidth) (toInt64 pos) hneg
    refine ⟨Error.ErrNegativeOffset, ?_⟩
    unfold readFrom
    rw [r1]

/-- A length field that is not representable as an `int` makes the allocation panic. -/
theorem readFrom_panic (f : OsFile) (pos : Nat) (hc : f.closed = false) (h63 : pos < 2 ^ 63)
    (h8 : pos + lenWidth ≤ f.data.length)
    (hL : maxAlloc < enc.Uint64 (slice f.data pos lenWidth)) :
    readFrom f pos = ReadResult.panic := by
  have hp : toInt64 pos = (pos : Int) := toInt64_of_lt pos h63
  have r1 := OsFile.ReadAt_full f (make lenWidth) pos hc (by rw [make_length]; exact h8)
  rw [make_length] at r1
  unfold readFrom
  rw [hp, r1]
  simp only [gt_iff_lt, hL, if_true]

/-- A positional read that succeeded gives the same result on any extension of the file. -/
theorem OsFile.ReadAt_extend (f g : OsFile) (b : List Byte) (off : Int) (E : List Byte)
    (hc : g.closed = f.closed) (hd : g.data = f.data ++ E)
    (h : (f.ReadAt b off).2.2 = none) : g.ReadAt b off = f.ReadAt b off := by
  obtain ⟨hcf, hoff, _, hl⟩ := OsFile.ReadAt_ok f b off h
  have hneg : ¬ off < 0 := by omega
  by_cases hb : b.length = 0
  · simp only [OsFile.ReadAt, hneg, hb, if_false, if_true]
  · have hopen := hcf (by omega)
    have hin : off.toNat + b.length ≤ f.data.length := by
      rw [slice_length_min] at hl; omega
    have key : (g.data.drop off.toNat).take b.length =
        (f.data.drop off.toNat).take b.length := by
      rw [hd]; exact slice_append f.data E off.toNat b.length hin
    simp only [OsFile.ReadAt, hc, hopen, hneg, hb, Bool.false_eq_true, if_false, key]

/-- A read that returned a payload returns the same payload on any extension of the file. -/
theorem readFrom_extend (f g : OsFile) (pos : Nat) (E : List Byte) (b : List Byte)
    (hc : g.closed = f.closed) (hd : g.data = f.data ++ E)
    (h : readFrom f pos = ReadResult.ret (some b) none) :
    readFrom g pos = ReadResult.ret (some b) none := by
  unfold readFrom at h
  split at h
  · simp at h
  · rename_i h1
    have e1 := OsFile.ReadAt_extend f g _ _ E hc hd h1
    split at h
    · simp at h
    · rename_i hmax
      split at h
      · simp at h
      · rename_i h2
        have e2 := OsFile.ReadAt_extend f g _ _ E hc hd h2
        unfold readFrom
        rw [e1, h1]
        simp only [hmax, if_false]
        rw [e2, h2]
        exact h

theorem step_size (s : store) (op : Op) (h : notAppended s op = true) :
    (step s op).size = s.size := by
  cases op with
  | append p =>
    simp only [notAppended, bne_iff_ne, ne_eq] at h
    rcases Append_cases s p with ⟨e, _, _, hs⟩ | ⟨e, _, _, _, hs⟩ | ⟨_, _, hr, _⟩
    · exact hs
    · exact hs
    · rw [hr] at h; exact absurd rfl h
  | read pos =>
    simp only [step, Read]
    split
    · rfl
    · split
      · rfl
      · split
        · rfl
        · split <;> rfl
  | readAt p off =>
    simp only [step, ReadAt]
    split <;> rfl
  | close =>
    simp only [step, Close]
    split <;> rfl

theorem run_size (ops : List Op) : ∀ s : store, noneAppended s ops = true →
    (run s ops).size = s.size := by
  induction ops with
  | nil => intro s _; rfl
  | cons op ops ih =>
    intro s h
    simp only [noneAppended, Bool.and_eq_true] at h
    have h1 := ih (step s op) h.2
    simp only [run, List.foldl_cons] at h1 ⊢
    rw [h1, step_size s op h.1]

theorem step_open (s : store) (op : Op) (h : Inv s) (hop : op.keepsOpen = true) :
    Inv (step s op) ∧ ∃ t, logical (step s op) = logical s ++ t := by
  cases op with
  | append p =>
    obtain ⟨_, hl, hi⟩ := Append_open s p h
    exact ⟨hi, record p, hl⟩
  | read pos =>
    simp only [step, Read_open s pos h]
    exact ⟨Inv_flushed s h, [], by rw [logical_flushed, List.append_nil]⟩
  | readAt p off =>
    simp only [step, ReadAt_open s p off h]
    exact ⟨Inv_flushed s h, [], by rw [logical_flushed, List.append_nil]⟩
  | close => simp [Op.keepsOpen] at hop

theorem run_open (ops : List Op) : ∀ s : store, Inv s → (∀ op ∈ ops, op.keepsOpen = true) →
    Inv (run s ops) ∧ ∃ t, logical (run s ops) = logical s ++ t := by
  induction ops with
  | nil => intro s h _; exact ⟨h, [], by simp [run]⟩
  | cons op ops ih =>
    intro s h hops
    obtain ⟨h1, t1, e1⟩ := step_open s op h (hops op (List.mem_cons_self _ _))
    obtain ⟨h2, t2, e2⟩ := ih (step s op) h1 (fun o ho => hops o (List.mem_cons_of_mem _ ho))
    refine ⟨h2, t1 ++ t2, ?_⟩
    simp only [run, List.foldl_cons] at e2 ⊢
    rw [e2, e1, List.append_assoc]

theorem recordBytes_cons (p : List Byte) (ps : List (List Byte)) :
    recordBytes (p :: ps) = lenWidth + p.length + recordBytes ps := by
  simp [recordBytes]

/-- Successful consecutive appends that do not overflow the size counter return strictly
increasing positions, none below the size at the start. -/
theorem appendAll_positions (ps : List (List Byte)) : ∀ s : store,
    allOk (appendAll s ps).2 → s.size + recordBytes ps < 2 ^ 64 →
    List.Pairwise (fun a b => a < b) (positions (appendAll s ps).2) ∧
      ∀ x ∈ positions (appendAll s ps).2, s.size ≤ x := by
  induction ps with
  | nil => intro s _ _; simp [appendAll, positions]
  | cons p ps ih =>
    intro s hok hfit
    rw [recordBytes_cons] at hfit
    have hok1 : (Append s p).2.2.2 = none := hok _ (List.mem_cons_self _ _)
    have hokr : allOk (appendAll (Append s p).1 ps).2 :=
      fun r hr => hok r (List.mem_cons_of_mem _ hr)
    rcases Append_cases s p with ⟨e, _, hr, _⟩ | ⟨e, _, _, hr, _⟩ | ⟨_, _, hr, hs⟩
    · rw [hr] at hok1; exact absurd hok1 (by simp)
    · rw [hr] at hok1; exact absurd hok1 (by simp)
    · have hw : (p.length + lenWidth) % 2 ^ 64 = p.length + lenWidth :=
        Nat.mod_eq_of_lt (by omega)
      have hs2 : (Append s p).1.size = s.size + (p.length + lenWidth) := by
        rw [hs, hw]; exact Nat.mod_eq_of_lt (by omega)
      obtain ⟨hpw, hge⟩ := ih (Append s p).1 hokr (by rw [hs2]; omega)
      have hpos : (Append s p).2.2.1 = s.size := by rw [hr]
      have hlw : lenWidth = 8 := rfl
      simp only [appendAll, positions, List.map_cons, List.pairwise_cons, List.mem_cons,
        forall_eq_or_imp, hpos, le_refl, true_and]
      refine ⟨⟨fun x hx => ?_, hpw⟩, fun x hx => ?_⟩
      · have := hge x hx; omega
      · have := hge x hx; omega

theorem records_cons (p : List Byte) (ps : List (List Byte)) :
    records (p :: ps) = record p ++ records ps := by
  simp [records]

/-- From a state that satisfies the invariant, consecutive appends all succeed, extend the
logical contents by the records in order, and return the offsets at which the records
begin. -/
theorem appendAll_open (ps : List (List Byte)) : ∀ s : store, Inv s →
    allOk (appendAll s ps).2 ∧
      logical (appendAll s ps).1 = logical s ++ records ps ∧
      Inv (appendAll s ps).1 ∧
      ∀ i, i < ps.length → (positions (appendAll s ps).2)[i]? =
        some (((logical s).length + (records (ps.take i)).length) % 2 ^ 64) := by
  induction ps with
  | nil =>
    intro s h
    refine ⟨?_, ?_, h, ?_⟩
    · intro r hr; simp [appendAll] at hr
    · simp [appendAll, records]
    · intro i hi; simp at hi
  | cons p ps ih =>
    intro s h
    obtain ⟨hr, hl, hi⟩ := Append_open s p h
    obtain ⟨hok, hlog, hinv, hpos⟩ := ih (Append s p).1 hi
    refine ⟨?_, ?_, hinv, ?_⟩
    · intro r hr2
      simp only [appendAll, List.mem_cons] at hr2
      rcases hr2 with rfl | hr2
      · rw [hr]
      · exact hok r hr2
    · simp only [appendAll]
      rw [hlog, hl, records_cons, List.append_assoc]
    · intro i hlt
      cases i with
      | zero =>
        simp only [appendAll, positions, List.map_cons, List.getElem?_cons_zero, hr,
          List.take_zero, records, List.map_nil, List.flatten_nil, List.length_nil,
          Nat.add_zero, Option.some.injEq]
        exact h.size_eq
      | succ i =>
        have := hpos i (by simpa using hlt)
        simp only [positions] at this
        simp only [appendAll, positions, List.map_cons, List.getElem?_cons_succ, this,
          List.take_succ_cons, records_cons, hl, List.length_append, Option.some.injEq]
        congr 1
        omega

theorem Close_open (s : store) (h : Inv s) :
    Close s = ({ flushed s with File := { (flushed s).File with closed := true } }, none) := by
  have hfl := Writer.Flush_open s.buf s.File h.err h.opened
  simp only [Close, hfl, OsFile.Close, h.opened, flushed, Bool.false_eq_true, if_false]

theorem reachable_emptyStore : Reachable emptyStore :=
  Reachable.init emptyFile emptyStore rfl (by decide)

theorem enc.PutUint64_mod (v : Nat) : enc.PutUint64 (v % 2 ^ 64) = enc.PutUint64 v := by
  simp only [enc.PutUint64, Fin.ofNat, List.cons.injEq, Fin.mk.injEq, and_true]
  refine ⟨?_, ?_, ?_, ?_, ?_, ?_, ?_, ?_⟩ <;> omega

theorem slice_mid (A B C : List Byte) : slice (A ++ B ++ C) A.length B.length = B := by
  simp [slice]

/-- Claim C1. Round trip with no explicit flush: in every state reached from `newStore` by
`Append`, `Read` and `ReadAt`, and for every payload `p` (the empty one included; a Go slice,
so within `maxAlloc`) whose record still ends at a valid file offset, `Append p` succeeds and
the `Read` of the position it returned, made right after it, returns exactly `p`. -/
theorem C1_round_trip (s : store) (p : List Byte) (hs : Reachable s)
    (hp : p.length ≤ maxAlloc)
    (hfit : (logical s).length + lenWidth + p.length < 2 ^ 63) :
    (Append s p).2.2.2 = none ∧
      (Read (Append s p).1 (Append s p).2.2.1).2 = ReadResult.ret (some p) none := by
  have hw : lenWidth = 8 := rfl
  have hinv := hs.inv
  obtain ⟨hr, hl, hi⟩ := Append_open s p hinv
  have hpos : (Append s p).2.2.1 = (logical s).length := by
    rw [hr]; simp only; rw [hinv.size_eq]; exact Nat.mod_eq_of_lt (by omega)
  have hdata : (flushed (Append s p).1).File.data =
      logical s ++ enc.PutUint64 (p.length % 2 ^ 64) ++ p := by
    rw [flushed_data, hl, record, List.append_assoc]
  have hpre : slice (flushed (Append s p).1).File.data (logical s).length lenWidth =
      enc.PutUint64 (p.length % 2 ^ 64) := by
    rw [hdata, slice_append _ _ _ _ (by simp [enc.PutUint64_length]; omega)]
    have := slice_mid (logical s) (enc.PutUint64 (p.length % 2 ^ 64)) []
    simpa [enc.PutUint64_length, hw] using this
  have hL : enc.Uint64 (slice (flushed (Append s p).1).File.data (logical s).length lenWidth) =
      p.length := by
    rw [hpre, enc.Uint64_PutUint64 _ (Nat.mod_lt _ (by norm_num))]
    exact Nat.mod_eq_of_lt (by omega)
  have hlen : (flushed (Append s p).1).File.data.length =
      (logical s).length + lenWidth + p.length := by
    rw [hdata]; simp [enc.PutUint64_length, hw]; omega
  refine ⟨by rw [hr], ?_⟩
  rw [Read_open _ _ hi, hpos]
  simp only
  rw [readFrom_inside _ _ (Inv_flushed _ hi).opened (by rw [hlen]; exact hfit)
    (by rw [hlen]; omega) (by rw [hL]; exact hp) (by rw [hL, hlen]), hL]
  have hpay : slice (flushed (Append s p).1).File.data ((logical s).length + lenWidth)
      p.length = p := by
    rw [hdata]
    have := slice_mid (logical s ++ enc.PutUint64 (p.length % 2 ^ 64)) p []
    simpa [enc.PutUint64_length, hw] using this
  rw [hpay]

/-- Witness of C1 on the empty store and the payload "hello". -/
theorem C1_round_trip_witness :
    Reachable emptyStore ∧ hello.length ≤ maxAlloc ∧
      (logical emptyStore).length + lenWidth + hello.length < 2 ^ 63 ∧
      ((Append emptyStore hello).2.2.2 = none ∧
        (Read (Append emptyStore hello).1 (Append emptyStore hello).2.2.1).2 =
          ReadResult.ret (some hello) none) :=
  ⟨reachable_emptyStore, by decide, by decide,
    C1_round_trip emptyStore hello reachable_emptyStore (by decide) (by decide)⟩

/-- Claim C2. Append postcondition: a successful `Append p` on a store of size `s.size`
(with the new size representable as a `uint64`) returns `bytesWritten = 8 + len(p)` and
`position = s.size`, and leaves the size equal to `s.size + 8 + len(p)`. -/
theorem C2_append_post (s : store) (p : List Byte) (hok : (Append s p).2.2.2 = none)
    (hfit : s.size + lenWidth + p.length < 2 ^ 64) :
    (Append s p).2.1 = lenWidth + p.length ∧ (Append s p).2.2.1 = s.size ∧
      (Append s p).1.size = s.size + lenWidth + p.length := by
  rcases Append_cases s p with ⟨e, _, hr, _⟩ | ⟨e, _, _, hr, _⟩ | ⟨_, _, hr, hs⟩
  · rw [hr] at hok; exact absurd hok (by simp)
  · rw [hr] at hok; exact absurd hok (by simp)
  · have hw : (p.length + lenWidth) % 2 ^ 64 = p.length + lenWidth :=
      Nat.mod_eq_of_lt (by omega)
    refine ⟨?_, ?_, ?_⟩
    · rw [hr]; simp only; omega
    · rw [hr]
    · rw [hs, hw, Nat.mod_eq_of_lt (by omega)]; omega

/-- Witness of C2: on the empty store `Append "hello"` returns `(13, 0)` and leaves size 13,
and `Append "world!"` then returns `(14, 13)`. -/
theorem C2_append_post_witness :
    (Append emptyStore hello).2 = (13, 0, none) ∧
      (Append (Append emptyStore hello).1 world).2 = (14, 13, none) ∧
      ((Append emptyStore hello).2.1 = lenWidth + hello.length ∧
        (Append emptyStore hello).2.2.1 = emptyStore.size ∧
        (Append emptyStore hello).1.size = emptyStore.size + lenWidth + hello.length) :=
  ⟨by decide, by decide, C2_append_post emptyStore hello (by decide) (by decide)⟩

/-- Claim C3. Size accounting across calls: if `Append` returns `(w, pos)` and, after any
calls that are not successful appends (`Read`, `ReadAt`, failed `Append`, even `Close`),
the next successful `Append` returns `pos2`, then `pos2 = pos + w` in `uint64` arithmetic,
and as plain numbers whenever `pos + w` is below `2 ^ 64`. -/
theorem C3_size_accounting (s : store) (p q : List Byte) (ops : List Op)
    (h1 : (Append s p).2.2.2 = none)
    (hmid : noneAppended (Append s p).1 ops = true)
    (h2 : (Append (run (Append s p).1 ops) q).2.2.2 = none) :
    (Append (run (Append s p).1 ops) q).2.2.1 =
        ((Append s p).2.2.1 + (Append s p).2.1) % 2 ^ 64 ∧
      ((Append s p).2.2.1 + (Append s p).2.1 < 2 ^ 64 →
        (Append (run (Append s p).1 ops) q).2.2.1 = (Append s p).2.2.1 + (Append s p).2.1) := by
  have hsz := run_size ops (Append s p).1 hmid
  have key : (Append (run (Append s p).1 ops) q).2.2.1 =
      ((Append s p).2.2.1 + (Append s p).2.1) % 2 ^ 64 := by
    rcases Append_cases (run (Append s p).1 ops) q with
      ⟨e, _, hr, _⟩ | ⟨e, _, _, hr, _⟩ | ⟨_, _, hr, _⟩
    · rw [hr] at h2; exact absurd h2 (by simp)
    · rw [hr] at h2; exact absurd h2 (by simp)
    · rcases Append_cases s p with ⟨e, _, hr1, _⟩ | ⟨e, _, _, hr1, _⟩ | ⟨_, _, hr1, hs1⟩
      · rw [hr1] at h1; exact absurd h1 (by simp)
      · rw [hr1] at h1; exact absurd h1 (by simp)
      · rw [hr, hr1]; simp only; rw [hsz, hs1]
  refine ⟨key, fun hlt => ?_⟩
  rw [key, Nat.mod_eq_of_lt hlt]

/-- Witness of C3: "hello", then two reads and a raw read, then "world!" at position 13. -/
theorem C3_size_accounting_witness :
    (Append (run (Append emptyStore hello).1
        [Op.read 0, Op.readAt (make 8) 0, Op.read 100]) world).2.2.1 = (0 + 13) % 2 ^ 64 ∧
      (Append (run (Append emptyStore hello).1
        [Op.read 0, Op.readAt (make 8) 0, Op.read 100]) world).2.2.1 = 13 :=
  ⟨(C3_size_accounting emptyStore hello world [Op.read 0, Op.readAt (make 8) 0, Op.read 100]
      (by decide) (by decide) (by decide)).1,
    (C3_size_accounting emptyStore hello world [Op.read 0, Op.readAt (make 8) 0, Op.read 100]
      (by decide) (by decide) (by decide)).2 (by decide)⟩

theorem records_eq_layout (ps : List (List Byte)) : records ps = layout ps := by
  simp only [records, layout]
  congr 1
  apply List.map_congr_left
  intro p _
  rw [record, enc.PutUint64_mod]

theorem layout_length (ps : List (List Byte)) : (layout ps).length = recordBytes ps := by
  induction ps with
  | nil => rfl
  | cons p ps ih =>
    have : layout (p :: ps) = enc.PutUint64 p.length ++ p ++ layout ps := by
      simp [layout]
    rw [this, recordBytes_cons, List.length_append, List.length_append, ih,
      enc.PutUint64_length, lenWidth]

theorem recordBytes_take_le (ps : List (List Byte)) (i : Nat) :
    recordBytes (ps.take i) ≤ recordBytes ps := by
  induction ps generalizing i with
  | nil => simp
  | cons p ps ih =>
    cases i with
    | zero => simp [recordBytes]
    | succ i =>
      rw [List.take_succ_cons, recordBytes_cons, recordBytes_cons]
      have := ih i
      omega

/-- Each of `Read`, `ReadAt` and `Close` leaves the whole logical contents in the file. -/
theorem step_flushes (s : store) (op : Op) (h : Inv s) (hop : ∀ p, op ≠ Op.append p) :
    (step s op).File.data = logical s := by
  cases op with
  | append p => exact absurd rfl (hop p)
  | read pos => simp only [step, Read_open s pos h, flushed_data]
  | readAt p off => simp only [step, ReadAt_open s p off h, flushed_data]
  | close => simp only [step, Close_open s h, flushed_data]

/-- Claim C4. Position uniqueness: the positions returned by consecutive successful calls of
`Append` on one store (the size counter not overflowing `uint64`) are strictly increasing in
call order, hence pairwise distinct. -/
theorem C4_positions_increasing (s : store) (ps : List (List Byte))
    (hok : allOk (appendAll s ps).2) (hfit : s.size + recordBytes ps < 2 ^ 64) :
    List.Pairwise (fun a b => a < b) (positions (appendAll s ps).2) ∧
      (positions (appendAll s ps).2).Nodup := by
  have h := (appendAll_positions ps s hok hfit).1
  exact ⟨h, h.imp (fun hab => Nat.ne_of_lt hab)⟩

/-- Witness of C4: "hello", "world!" and the empty payload land at 0, 13 and 27. -/
theorem C4_positions_increasing_witness :
    positions (appendAll emptyStore [hello, world, []]).2 = [0, 13, 27] ∧
      (List.Pairwise (fun a b => a < b) (positions (appendAll emptyStore [hello, world, []]).2) ∧
        (positions (appendAll emptyStore [hello, world, []]).2).Nodup) :=
  ⟨by decide, C4_positions_increasing emptyStore [hello, world, []] (by decide) (by decide)⟩

/-- Claim C5. On-disk layout: over an empty file, appends of `p1..pN` all succeed and, once
a `Read`, a `ReadAt` or a `Close` has flushed the buffer, the bytes of the file are exactly
the concatenation in call order of the 8-byte big-endian length of each payload followed by
the payload; the position returned for the `i`-th payload is the offset at which its record
begins, the total length of the records before it. -/
theorem C5_layout (f : OsFile) (s0 : store) (ps : List (List Byte)) (op : Op)
    (hempty : f.data = []) (hopen : f.closed = false) (hnew : newStore f = (some s0, none))
    (hop : ∀ p, op ≠ Op.append p) (hfit : recordBytes ps < 2 ^ 64) :
    allOk (appendAll s0 ps).2 ∧
      (step (appendAll s0 ps).1 op).File.data = layout ps ∧
      ∀ i, i < ps.length →
        (positions (appendAll s0 ps).2)[i]? = some (layout (ps.take i)).length := by
  obtain ⟨hinv, hlog⟩ := newStore_inv f s0 hopen hnew
  obtain ⟨hok, hl, hi, hpos⟩ := appendAll_open ps s0 hinv
  rw [hlog, hempty, List.nil_append, records_eq_layout] at hl
  refine ⟨hok, ?_, ?_⟩
  · rw [step_flushes _ op hi hop, hl]
  · intro i hlt
    rw [hpos i hlt, hlog, hempty, records_eq_layout, List.length_nil, Nat.zero_add]
    have h1 := recordBytes_take_le ps i
    rw [Nat.mod_eq_of_lt (by rw [layout_length]; omega)]

/-- Witness of C5: "hello" and "world!" over the empty file, flushed by `Close`. -/
theorem C5_layout_witness :
    (step (appendAll emptyStore [hello, world]).1 Op.close).File.data =
        [0, 0, 0, 0, 0, 0, 0, 5, 104, 101, 108, 108, 111,
         0, 0, 0, 0, 0, 0, 0, 6, 119, 111, 114, 108, 100, 33] ∧
      (allOk (appendAll emptyStore [hello, world]).2 ∧
        (step (appendAll emptyStore [hello, world]).1 Op.close).File.data =
          layout [hello, world] ∧
        ∀ i, i < [hello, world].length →
          (positions (appendAll emptyStore [hello, world]).2)[i]? =
            some (layout ([hello, world].take i)).length) :=
  ⟨by decide, C5_layout emptyFile emptyStore [hello, world] Op.close rfl rfl (by decide)
    (by intro p h; cases h) (by decide)⟩

/-- Claim C6. Append-only stability: if `Read pos` returns the payload `p` in a reachable
state, then after any further calls of `Append`, `Read` and `ReadAt` it still returns `p`,
and the earlier logical contents are still the beginning of the logical contents. -/
theorem C6_stability (s : store) (pos : Nat) (p : List Byte) (ops : List Op)
    (hs : Reachable s) (hread : (Read s pos).2 = ReadResult.ret (some p) none)
    (hops : ∀ op ∈ ops, op.keepsOpen = true) :
    (Read (run s ops) pos).2 = ReadResult.ret (some p) none ∧
      ∃ t, logical (run s ops) = logical s ++ t := by
  have hinv := hs.inv
  obtain ⟨hi, t, ht⟩ := run_open ops s hinv hops
  refine ⟨?_, t, ht⟩
  rw [Read_open s pos hinv] at hread
  rw [Read_open _ pos hi]
  exact readFrom_extend (flushed s).File (flushed (run s ops)).File pos t p
    (by rw [(Inv_flushed _ hi).opened, (Inv_flushed _ hinv).opened])
    (by rw [flushed_data, flushed_data, ht]) hread

/-- Witness of C6: "hello" at position 0 survives further appends and reads. -/
theorem C6_stability_witness :
    (Read (run (Append emptyStore hello).1
        [Op.append world, Op.read 13, Op.readAt (make 4) 2, Op.append hello]) 0).2 =
        ReadResult.ret (some hello) none ∧
      ∃ t, logical (run (Append emptyStore hello).1
        [Op.append world, Op.read 13, Op.readAt (make 4) 2, Op.append hello]) =
        logical (Append emptyStore hello).1 ++ t :=
  C6_stability (Append emptyStore hello).1 0 hello
    [Op.append world, Op.read 13, Op.readAt (make 4) 2, Op.append hello]
    (Reachable.append emptyStore hello reachable_emptyStore) (by decide) (by decide)

/-- Claim C7. Append is atomic with respect to size: when the write of the length field
fails, and when the write of the payload fails, `Append` returns `(0, 0, err)` with that
error and leaves the size as it was; every failing call does so; and a call that succeeds
had both writes succeed and advanced the size (a `uint64`) by the count it returned. -/
theorem C7_append_atomic (s : store) (p : List Byte) :
    (∀ e, (binaryWrite s.buf s.File (p.length % 2 ^ 64)).2.2 = some e →
        (Append s p).2 = (0, 0, some e) ∧ (Append s p).1.size = s.size) ∧
      (∀ e, (binaryWrite s.buf s.File (p.length % 2 ^ 64)).2.2 = none →
        ((binaryWrite s.buf s.File (p.length % 2 ^ 64)).1.Write
          (binaryWrite s.buf s.File (p.length % 2 ^ 64)).2.1 p).2.2.2 = some e →
        (Append s p).2 = (0, 0, some e) ∧ (Append s p).1.size = s.size) ∧
      ((Append s p).2.2.2 ≠ none →
        (Append s p).2.1 = 0 ∧ (Append s p).2.2.1 = 0 ∧ (Append s p).1.size = s.size) ∧
      ((Append s p).2.2.2 = none →
        (binaryWrite s.buf s.File (p.length % 2 ^ 64)).2.2 = none ∧
        ((binaryWrite s.buf s.File (p.length % 2 ^ 64)).1.Write
          (binaryWrite s.buf s.File (p.length % 2 ^ 64)).2.1 p).2.2.2 = none ∧
        (Append s p).2.1 = (lenWidth + p.length) % 2 ^ 64 ∧
        (Append s p).1.size = (s.size + (Append s p).2.1) % 2 ^ 64) := by
  refine ⟨fun e h => Append_of_len_err s p e h, fun e h1 h2 => Append_of_data_err s p e h1 h2,
    fun hne => ?_, fun hok => ?_⟩
  · rcases Append_cases s p with ⟨e, _, hr, hs⟩ | ⟨e, _, _, hr, hs⟩ | ⟨_, _, hr, _⟩
    · rw [hr]; exact ⟨rfl, rfl, hs⟩
    · rw [hr]; exact ⟨rfl, rfl, hs⟩
    · rw [hr] at hne; exact absurd rfl hne
  · rcases Append_cases s p with ⟨e, _, hr, _⟩ | ⟨e, _, _, hr, _⟩ | ⟨h1, h2, hr, hs⟩
    · rw [hr] at hok; exact absurd hok (by simp)
    · rw [hr] at hok; exact absurd hok (by simp)
    · refine ⟨h1, h2, ?_, ?_⟩
      · rw [hr, Nat.add_comm]
      · rw [hs, hr]

/-- Witness of C7 on the store closed right after `newStore`: a payload of 4089 bytes
overflows the buffer behind the length field, so the write of the payload reaches the
closed file and fails; from then on the error of the writer is sticky and the write of the
length field of the next call fails. Both calls return `(0, 0, err)` and leave the size. -/
theorem C7_append_atomic_witness :
    ((binaryWrite closedStore.buf closedStore.File (big.length % 2 ^ 64)).2.2 = none ∧
        (Append closedStore big).2 = (0, 0, some Error.ErrClosed) ∧
        (Append closedStore big).1.size = closedStore.size) ∧
      ((binaryWrite (Append closedStore big).1.buf (Append closedStore big).1.File
          (hello.length % 2 ^ 64)).2.2 = some Error.ErrClosed ∧
        (Append (Append closedStore big).1 hello).2 = (0, 0, some Error.ErrClosed) ∧
        (Append (Append closedStore big).1 hello).1.size = (Append closedStore big).1.size) :=
  ⟨⟨by decide!, (C7_append_atomic closedStore big).2.1 Error.ErrClosed (by decide!)
      (by decide!)⟩,
    ⟨by decide!, (C7_append_atomic (Append closedStore big).1 hello).1 Error.ErrClosed
      (by decide!)⟩⟩

/-- Claim C8. Read reference semantics: in a reachable state with logical contents `D`
(shorter than `2 ^ 63`, as every file is), for every `pos` with `pos + 8 ≤ len(D)`, with `L`
the big-endian value of `D[pos .. pos+8)` (within `maxAlloc`, so that the payload buffer can
be allocated), if `pos + 8 + L ≤ len(D)` then `Read pos` returns exactly
`D[pos+8 .. pos+8+L)`; `pos` need not be a record boundary. -/
theorem C8_read_reference (s : store) (pos : Nat) (hs : Reachable s)
    (hlen : (logical s).length < 2 ^ 63) (h8 : pos + lenWidth ≤ (logical s).length)
    (hA : enc.Uint64 (slice (logical s) pos lenWidth) ≤ maxAlloc)
    (hL : pos + lenWidth + enc.Uint64 (slice (logical s) pos lenWidth) ≤ (logical s).length) :
    (Read s pos).2 = ReadResult.ret (some (slice (logical s) (pos + lenWidth)
      (enc.Uint64 (slice (logical s) pos lenWidth)))) none := by
  have hinv := hs.inv
  rw [Read_open s pos hinv]
  exact readFrom_inside (flushed s).File pos (Inv_flushed s hinv).opened hlen h8 hA hL

/-- Witness of C8 at a position inside a payload: position 8 of the record of `nested` holds
the length 1, and the read returns the one byte after it. -/
theorem C8_read_reference_witness :
    slice (logical (Append emptyStore nested).1) 8 lenWidth = [0, 0, 0, 0, 0, 0, 0, 1] ∧
      (Read (Append emptyStore nested).1 8).2 = ReadResult.ret (some [42]) none ∧
      (Read (Append emptyStore nested).1 8).2 =
        ReadResult.ret (some (slice (logical (Append emptyStore nested).1) (8 + lenWidth)
          (enc.Uint64 (slice (logical (Append emptyStore nested).1) 8 lenWidth)))) none :=
  ⟨by decide, by decide,
    C8_read_reference (Append emptyStore nested).1 8
      (Reachable.append emptyStore nested reachable_emptyStore) (by decide) (by decide)
      (by decide) (by decide)⟩

/-- Counterexample to C9 as stated: after `Append` of eight bytes `0xFF` on the empty store
the logical length is 16; `Read 8` decodes the length `2 ^ 64 - 1`, which no `int` holds, so
`8 + 8 + L` exceeds 16, yet the call does not return an error: the allocation of the payload
buffer panics. -/
theorem C9_counterexample :
    Reachable (Append emptyStore allOnes).1 ∧
      (logical (Append emptyStore allOnes).1).length = 16 ∧
      enc.Uint64 (slice (logical (Append emptyStore allOnes).1) 8 lenWidth) = 2 ^ 64 - 1 ∧
      (logical (Append emptyStore allOnes).1).length <
        8 + lenWidth + enc.Uint64 (slice (logical (Append emptyStore allOnes).1) 8 lenWidth) ∧
      (Read (Append emptyStore allOnes).1 8).2 = ReadResult.panic ∧
      ¬ ∃ e, (Read (Append emptyStore allOnes).1 8).2 = ReadResult.ret none (some e) :=
  ⟨Reachable.append emptyStore allOnes reachable_emptyStore, by decide, by decide, by decide,
    by decide, by
      intro ⟨e, he⟩
      have hp : (Read (Append emptyStore allOnes).1 8).2 = ReadResult.panic := by decide
      rw [hp] at he
      cases he⟩

/-- Claim C9, amended. Short-file failure: in a reachable state with logical contents `D` of
length `n`, `Read pos` returns a nil payload and a non-nil error whenever `pos + 8 > n`
(every `pos` at or beyond `n` included), whenever `pos ≥ 2 ^ 63`, and whenever the decoded
length `L` is within the allocation limit `maxAlloc` and `pos + 8 + L > n`; when `L` exceeds
the limit the allocation of the payload buffer panics; and a payload that is returned is
never zero-filled or truncated: it is `D[pos+8 .. pos+8+L)` and has length `L`. -/
theorem C9_short_read (s : store) (pos : Nat) (hs : Reachable s) (hpos : pos < 2 ^ 64) :
    (((logical s).length < pos + lenWidth ∨ 2 ^ 63 ≤ pos ∨
        ((logical s).length < pos + lenWidth + enc.Uint64 (slice (logical s) pos lenWidth) ∧
          enc.Uint64 (slice (logical s) pos lenWidth) ≤ maxAlloc)) →
        ∃ e, (Read s pos).2 = ReadResult.ret none (some e)) ∧
      (pos < 2 ^ 63 → pos + lenWidth ≤ (logical s).length →
        maxAlloc < enc.Uint64 (slice (logical s) pos lenWidth) →
        (Read s pos).2 = ReadResult.panic) ∧
      (∀ b, (Read s pos).2 = ReadResult.ret (some b) none →
        b = slice (logical s) (pos + lenWidth) (enc.Uint64 (slice (logical s) pos lenWidth)) ∧
        b.length = enc.Uint64 (slice (logical s) pos lenWidth) ∧
        pos + lenWidth ≤ (logical s).length) := by
  have hinv := hs.inv
  rw [Read_open s pos hinv]
  refine ⟨fun h => ?_, fun h63 h8 hL => ?_, fun b hb => ?_⟩
  · exact readFrom_short (flushed s).File pos (Inv_flushed s hinv).opened hpos h
  · exact readFrom_panic (flushed s).File pos (Inv_flushed s hinv).opened h63 h8 hL
  · obtain ⟨_, h8, _, _, hb1, hb2, _⟩ := readFrom_some (flushed s).File pos hpos b hb
    exact ⟨hb1, hb2, h8⟩

/-- Witness of C9, amended. On the store holding the record of "hello" (13 bytes) a read at
position 13 and a read at position `2 ^ 63` return an error and no payload; on the store
holding the record of `nested` (17 bytes) a read at position 9 decodes the length 298, past
the end, and returns an error and no payload. -/
theorem C9_short_read_witness :
    (Read (Append emptyStore hello).1 13).2 = ReadResult.ret none (some Error.EOF) ∧
      (Read (Append emptyStore hello).1 (2 ^ 63)).2 =
        ReadResult.ret none (some Error.ErrNegativeOffset) ∧
      enc.Uint64 (slice (logical (Append emptyStore nested).1) 9 lenWidth) = 298 ∧
      (Read (Append emptyStore nested).1 9).2 = ReadResult.ret none (some Error.EOF) ∧
      (∃ e, (Read (Append emptyStore hello).1 13).2 = ReadResult.ret none (some e)) ∧
      (∃ e, (Read (Append emptyStore nested).1 9).2 = ReadResult.ret none (some e)) :=
  ⟨by decide, by decide, by decide, by decide!,
    (C9_short_read (Append emptyStore hello).1 13
      (Reachable.append emptyStore hello reachable_emptyStore) (by decide)).1
      (Or.inl (by decide)),
    (C9_short_read (Append emptyStore nested).1 9
      (Reachable.append emptyStore nested reachable_emptyStore) (by decide)).1
      (Or.inr (Or.inr ⟨by decide, by decide⟩))⟩

/-- Claim C10. Raw read of the logical contents: in a reachable state with logical contents
`D`, for every offset `off ≥ 0` and every buffer of length `k` with `off + k ≤ len(D)`,
`ReadAt buf off` returns `(k, nil)` and leaves `D[off .. off+k)` in the buffer, bytes that
were only buffered before the call included. -/
theorem C10_readAt_raw (s : store) (buf : List Byte) (off : Int) (hs : Reachable s)
    (hoff : 0 ≤ off) (hfit : off.toNat + buf.length ≤ (logical s).length) :
    (ReadAt s buf off).2 = (slice (logical s) off.toNat buf.length, buf.length, none) := by
  have hinv := hs.inv
  rw [ReadAt_open s buf off hinv]
  have hcast : off = ((off.toNat : Nat) : Int) := (Int.toNat_of_nonneg hoff).symm
  have := OsFile.ReadAt_full (flushed s).File buf off.toNat (Inv_flushed s hinv).opened
    (by rw [flushed_data]; exact hfit)
  rw [← hcast, flushed_data] at this
  exact this

/-- Witness of C10: after `Append "hello"` on the empty store, still in the buffer, `ReadAt`
of an 8-byte buffer at offset 0 yields the big-endian encoding of 5. -/
theorem C10_readAt_raw_witness :
    (Append emptyStore hello).1.File.data = [] ∧
      (ReadAt (Append emptyStore hello).1 (make 8) 0).2 = (enc.PutUint64 5, 8, none) ∧
      (ReadAt (Append emptyStore hello).1 (make 8) 0).2 =
        (slice (logical (Append emptyStore hello).1) (0 : Int).toNat (make 8).length,
          (make 8).length, none) :=
  ⟨by decide, by decide,
    C10_readAt_raw (Append emptyStore hello).1 (make 8) 0
      (Reachable.append emptyStore hello reachable_emptyStore) (by decide) (by decide)⟩


/-- A flush keeps the capacity of the buffer and the closed and linked flags of the file. -/
theorem Writer.Flush_frame (b : Writer) (f : OsFile) :
    (b.Flush f).1.size = b.size ∧ (b.Flush f).2.1.closed = f.closed ∧
      (b.Flush f).2.1.linked = f.linked := by
  obtain ⟨err, buf, size⟩ := b
  cases err with
  | some e => simp [Writer.Flush]
  | none =>
    cases hc : f.closed
    · simp [Writer.Flush_open ⟨none, buf, size⟩ f rfl hc, hc]
    · cases buf with
      | nil => simp [Writer.Flush, Writer.Buffered, hc]
      | cons x xs => simp [Writer.Flush, Writer.Buffered, OsFile.Write_closed f _ hc, hc]

/-- A flush, failed or not, keeps the logical contents: what leaves the buffer is in the
file. -/
theorem Writer.Flush_logical (b : Writer) (f : OsFile) :
    (b.Flush f).2.1.data ++ (b.Flush f).1.buf = f.data ++ b.buf := by
  obtain ⟨err, buf, size⟩ := b
  cases err with
  | some e => simp [Writer.Flush]
  | none =>
    cases hc : f.closed
    · simp [Writer.Flush_open ⟨none, buf, size⟩ f rfl hc]
    · cases buf with
      | nil => simp [Writer.Flush, Writer.Buffered]
      | cons x xs => simp [Writer.Flush, Writer.Buffered, OsFile.Write_closed f _ hc]

/-- A flush that returns no error found no sticky error, emptied the buffer into the file,
and wrote to the file only if it was open. -/
theorem Writer.Flush_ok (b : Writer) (f : OsFile) (h : (b.Flush f).2.2 = none) :
    b.err = none ∧ (b.Flush f).1 = { b with buf := [] } ∧
      (b.Flush f).2.1.data = f.data ++ b.buf ∧ (b.buf ≠ [] → f.closed = false) := by
  obtain ⟨err, buf, size⟩ := b
  cases err with
  | some e => simp [Writer.Flush] at h
  | none =>
    cases hc : f.closed
    · simp [Writer.Flush_open ⟨none, buf, size⟩ f rfl hc]
    · cases buf with
      | nil => simp [Writer.Flush, Writer.Buffered]
      | cons x xs => simp [Writer.Flush, Writer.Buffered, OsFile.Write_closed f _ hc] at h

/-- On a closed file a flush fails as soon as there is a sticky error or a buffered byte. -/
theorem Writer.Flush_closed (b : Writer) (f : OsFile) (hc : f.closed = true)
    (h : b.err ≠ none ∨ b.buf ≠ []) : ∃ e, (b.Flush f).2.2 = some e := by
  cases hf : (b.Flush f).2.2 with
  | some e => exact ⟨e, rfl⟩
  | none =>
    obtain ⟨he, _, _, hb⟩ := Writer.Flush_ok b f hf
    rcases h with h | h
    · exact absurd he h
    · have := hb h
      rw [hc] at this
      exact absurd this (by simp)

/-- The loop of `Write` loses no byte: file, buffer and the rest of `p` together stay the
same sequence. -/
theorem Writer.writeLoop_logical (st : Writer.WriteState) :
    (Writer.writeLoop 3 st).f.data ++ (Writer.writeLoop 3 st).b.buf ++
      (Writer.writeLoop 3 st).p = st.f.data ++ st.b.buf ++ st.p := by
  apply Writer.writeLoop_rule
    (fun s => s.f.data ++ s.b.buf ++ s.p = st.f.data ++ st.b.buf ++ st.p) st rfl
  · intro s hP _ h0
    have hnil : s.b.buf = [] := List.length_eq_zero.mp h0
    rw [← hP]
    cases hc : s.f.closed
    · simp [Writer.directStep, OsFile.Write_at_end s.f s.p hc, hnil]
    · simp [Writer.directStep, OsFile.Write_closed s.f s.p hc, hnil]
  · intro s hP _ _
    have hfl := Writer.Flush_logical
      { s.b with buf := s.b.buf ++ s.p.take (min s.b.Available s.p.length) } s.f
    simp only [Writer.fillStep]
    rw [hfl, ← hP]
    simp only [List.append_assoc, List.take_append_drop]

/-- The frame of `Write`: capacity, closed flag and linked flag are kept. -/
theorem Writer.Write_frame (b : Writer) (f : OsFile) (p : List Byte) :
    (b.Write f p).1.size = b.size ∧ (b.Write f p).2.1.closed = f.closed ∧
      (b.Write f p).2.1.linked = f.linked := by
  have hfr := Writer.writeLoop_frame { b := b, f := f, p := p, nn := 0 }
  cases he : (Writer.writeLoop 3 { b := b, f := f, p := p, nn := 0 }).b.err <;>
    simp only [Writer.Write, he] <;> exact hfr

/-- A `Write` that returns no error has added `p` to the logical contents. -/
theorem Writer.Write_logical (b : Writer) (f : OsFile) (p : List Byte)
    (h : (b.Write f p).2.2.2 = none) :
    (b.Write f p).2.1.data ++ (b.Write f p).1.buf = f.data ++ b.buf ++ p := by
  have hd := Writer.writeLoop_done { b := b, f := f, p := p, nn := 0 }
  have hl := Writer.writeLoop_logical { b := b, f := f, p := p, nn := 0 }
  unfold Writer.Write at h ⊢
  cases he : (Writer.writeLoop 3 { b := b, f := f, p := p, nn := 0 }).b.err with
  | some e => simp [he] at h
  | none =>
    have hlen : (Writer.writeLoop 3 { b := b, f := f, p := p, nn := 0 }).p.length ≤
        (Writer.writeLoop 3 { b := b, f := f, p := p, nn := 0 }).b.Available := by
      unfold Writer.loopDone at hd
      by_contra hlt
      exact hd ⟨by omega, he⟩
    simp only [he, Nat.min_eq_right hlen, List.take_length]
    rw [← List.append_assoc]
    exact hl

/-- A `Write` on a writer with a sticky error returns that error. -/
theorem Writer.Write_sticky (b : Writer) (f : OsFile) (p : List Byte) (e : Error)
    (h : b.err = some e) : (b.Write f p).2.2.2 = some e := by
  have hd : Writer.loopDone { b := b, f := f, p := p, nn := 0 } := by
    unfold Writer.loopDone; simp [h]
  simp only [Writer.Write, Writer.writeLoop_exit 3 _ hd, h]

/-- A `Write` that fits in the free space of the buffer only copies `p` into the buffer. -/
theorem Writer.Write_fits (b : Writer) (f : OsFile) (p : List Byte) (he : b.err = none)
    (h : p.length ≤ b.Available) :
    b.Write f p = ({ b with buf := b.buf ++ p }, f, p.length, none) := by
  have hd : Writer.loopDone { b := b, f := f, p := p, nn := 0 } := by
    unfold Writer.loopDone; simp only [not_and]; intro hlt; omega
  simp only [Writer.Write, Writer.writeLoop_exit 3 _ hd, he, Nat.min_eq_right h,
    List.take_length, Nat.zero_add]

/-- The error a flush returns is the error the writer keeps. -/
theorem Writer.Flush_err (b : Writer) (f : OsFile) (e : Error)
    (h : (b.Flush f).2.2 = some e) : (b.Flush f).1.err = some e := by
  obtain ⟨err, buf, size⟩ := b
  cases err with
  | some e0 => simpa [Writer.Flush] using h
  | none =>
    cases hc : f.closed
    · simp [Writer.Flush_open ⟨none, buf, size⟩ f rfl hc] at h
    · cases buf with
      | nil => simp [Writer.Flush, Writer.Buffered] at h
      | cons x xs =>
        simpa [Writer.Flush, Writer.Buffered, OsFile.Write_closed f _ hc] using h

/-- On a closed file a `Write` that does not fit in the free space of the buffer fails. -/
theorem Writer.Write_closed_overflow (b : Writer) (f : OsFile) (p : List Byte)
    (hc : f.closed = true) (he : b.err = none) (h : b.Available < p.length) :
    ∃ e, (b.Write f p).2.2.2 = some e := by
  have hnd : ¬ Writer.loopDone { b := b, f := f, p := p, nn := 0 } := by
    unfold Writer.loopDone; simp only [not_not]; exact ⟨h, he⟩
  have herr : ∃ e, (Writer.writeLoop 3 { b := b, f := f, p := p, nn := 0 }).b.err = some e := by
    by_cases h0 : b.Buffered = 0
    · rw [Writer.writeLoop_direct 2 _ hnd h0,
        Writer.writeLoop_exit 2 _ (Writer.directStep_done _)]
      exact ⟨Error.ErrClosed, by simp [Writer.directStep, OsFile.Write_closed f p hc]⟩
    · rw [Writer.writeLoop_fill 2 _ hnd h0]
      obtain ⟨e, hfe⟩ := Writer.Flush_closed
        { b with buf := b.buf ++ p.take (min b.Available p.length) } f hc
        (Or.inr (by
          intro hnil
          have : b.buf = [] := (List.append_eq_nil.mp hnil).1
          exact h0 (by simp [Writer.Buffered, this])))
      have hbe : (Writer.fillStep { b := b, f := f, p := p, nn := 0 }).b.err = some e :=
        Writer.Flush_err _ f e hfe
      have hdone : Writer.loopDone (Writer.fillStep { b := b, f := f, p := p, nn := 0 }) := by
        unfold Writer.loopDone; simp [hbe]
      rw [Writer.writeLoop_exit 2 _ hdone]
      exact ⟨e, hbe⟩
  obtain ⟨e, he2⟩ := herr
  exact ⟨e, by simp only [Writer.Write, he2]⟩

/-- The frame of `Append`: the closed and linked flags of the file and the capacity of the
buffer are kept, whether the call succeeds or fails. -/
theorem Append_frame (s : store) (p : List Byte) :
    (Append s p).1.File.closed = s.File.closed ∧ (Append s p).1.File.linked = s.File.linked ∧
      (Append s p).1.buf.size = s.buf.size := by
  have W1 := Writer.Write_frame s.buf s.File (enc.PutUint64 (p.length % 2 ^ 64))
  have W2 := Writer.Write_frame (binaryWrite s.buf s.File (p.length % 2 ^ 64)).1
    (binaryWrite s.buf s.File (p.length % 2 ^ 64)).2.1 p
  have e1 : (binaryWrite s.buf s.File (p.length % 2 ^ 64)).1 =
      (s.buf.Write s.File (enc.PutUint64 (p.length % 2 ^ 64))).1 := rfl
  have e2 : (binaryWrite s.buf s.File (p.length % 2 ^ 64)).2.1 =
      (s.buf.Write s.File (enc.PutUint64 (p.length % 2 ^ 64))).2.1 := rfl
  cases h1 : (binaryWrite s.buf s.File (p.length % 2 ^ 64)).2.2 with
  | some e =>
    simp only [Append, h1]
    exact ⟨W1.2.1, W1.2.2, W1.1⟩
  | none =>
    cases h2 : ((binaryWrite s.buf s.File (p.length % 2 ^ 64)).1.Write
        (binaryWrite s.buf s.File (p.length % 2 ^ 64)).2.1 p).2.2.2 with
    | some e =>
      simp only [Append, h1, h2]
      exact ⟨W2.2.1.trans (e2 ▸ W1.2.1), W2.2.2.trans (e2 ▸ W1.2.2), W2.1.trans (e1 ▸ W1.1)⟩
    | none =>
      simp only [Append, h1, h2]
      exact ⟨W2.2.1.trans (e2 ▸ W1.2.1), W2.2.2.trans (e2 ▸ W1.2.2), W2.1.trans (e1 ▸ W1.1)⟩

/-- A successful `Append`, in any state, adds exactly one record to the logical contents. -/
theorem Append_logical (s : store) (p : List Byte) (h : (Append s p).2.2.2 = none) :
    logical (Append s p).1 = logical s ++ record p := by
  rcases Append_cases s p with ⟨e, _, hr, _⟩ | ⟨e, _, _, hr, _⟩ | ⟨h1, h2, _, _⟩
  · rw [hr] at h; exact absurd h (by simp)
  · rw [hr] at h; exact absurd h (by simp)
  · have L1 := Writer.Write_logical s.buf s.File (enc.PutUint64 (p.length % 2 ^ 64)) h1
    have L2 := Writer.Write_logical _ _ p h2
    simp only [Append, h1, h2, logical]
    rw [L2]
    simp only [binaryWrite]
    rw [L1, record]
    simp only [List.append_assoc]

/-- The store after `Read` is the store after the flush, whatever the result. -/
theorem Read_state (s : store) (pos : Nat) :
    (Read s pos).1 = { s with buf := (s.buf.Flush s.File).1, File := (s.buf.Flush s.File).2.1 } := by
  simp only [Read]
  split
  · rfl
  · split
    · rfl
    · split
      · rfl
      · split <;> rfl

/-- The store after `ReadAt` is the store after the flush, whatever the result. -/
theorem ReadAt_state (s : store) (p : List Byte) (off : Int) :
    (ReadAt s p off).1 =
      { s with buf := (s.buf.Flush s.File).1, File := (s.buf.Flush s.File).2.1 } := by
  simp only [ReadAt]
  split <;> rfl

/-- The store after `Close` differs from the store after the flush at most in the closed
flag of the file. -/
theorem Close_state (s : store) :
    (Close s).1.size = s.size ∧ (Close s).1.buf = (s.buf.Flush s.File).1 ∧
      (Close s).1.File.data = (s.buf.Flush s.File).2.1.data ∧
      (Close s).1.File.linked = (s.buf.Flush s.File).2.1.linked ∧
      (s.File.closed = true → (Close s).1.File.closed = true) := by
  have hfr := Writer.Flush_frame s.buf s.File
  cases hf : (s.buf.Flush s.File).2.2 with
  | some e =>
    refine ⟨?_, ?_, ?_, ?_, ?_⟩ <;> simp only [Close, hf]
    intro h; rw [hfr.2.1]; exact h
  | none =>
    cases hc : (s.buf.Flush s.File).2.1.closed with
    | true =>
      refine ⟨?_, ?_, ?_, ?_, ?_⟩ <;>
        simp only [Close, hf, OsFile.Close, hc, if_true, implies_true]
    | false =>
      refine ⟨?_, ?_, ?_, ?_, ?_⟩ <;>
        simp only [Close, hf, OsFile.Close, hc, Bool.false_eq_true, if_false, implies_true]

/-- No call opens a closed file. -/
theorem step_closed (s : store) (op : Op) (h : s.File.closed = true) :
    (step s op).File.closed = true := by
  have hfr := Writer.Flush_frame s.buf s.File
  cases op with
  | append p => simp only [step]; rw [(Append_frame s p).1]; exact h
  | read pos => simp only [step, Read_state]; rw [hfr.2.1]; exact h
  | readAt p off => simp only [step, ReadAt_state]; rw [hfr.2.1]; exact h
  | close => exact (Close_state s).2.2.2.2 h

theorem run_closed (ops : List Op) : ∀ s : store, s.File.closed = true →
    (run s ops).File.closed = true := by
  induction ops with
  | nil => intro s h; exact h
  | cons op ops ih =>
    intro s h
    have := ih (step s op) (step_closed s op h)
    simpa only [run, List.foldl_cons] using this

/-- A call that is not a successful `Append` keeps the logical contents. -/
theorem step_logical (s : store) (op : Op) (h : ∀ p, op ≠ Op.append p) :
    logical (step s op) = logical s := by
  have hl := Writer.Flush_logical s.buf s.File
  cases op with
  | append p => exact absurd rfl (h p)
  | read pos => simp only [step, Read_state, logical]; exact hl
  | readAt p off => simp only [step, ReadAt_state, logical]; exact hl
  | close =>
    obtain ⟨_, hb, hd, _, _⟩ := Close_state s
    simp only [step, logical]
    rw [hb, hd]; exact hl

theorem Reachable.linked {s : store} (h : Reachable s) : s.File.linked = true := by
  induction h with
  | init f s _ hnew =>
    obtain ⟨rfl, hl⟩ := newStore_ok f s hnew
    exact hl
  | append s p _ ih => rw [(Append_frame s p).2.1]; exact ih
  | read s pos _ ih => rw [Read_state]; simp only; rw [(Writer.Flush_frame _ _).2.2]; exact ih
  | readAt s p off _ ih =>
    rw [ReadAt_state]; simp only; rw [(Writer.Flush_frame _ _).2.2]; exact ih

theorem newStore_linked (g : OsFile) (h : g.linked = true) :
    newStore g = (some { File := g, buf := Writer.NewWriter, size := g.data.length % 2 ^ 64 },
      none) := by
  simp [newStore, OsFile.Stat, h]

/-- The position a successful `Append` returns is the size of the store it is called on. -/
theorem Append_pos (s : store) (p : List Byte) (h : (Append s p).2.2.2 = none) :
    (Append s p).2.2.1 = s.size := by
  rcases Append_cases s p with ⟨e, _, hr, _⟩ | ⟨e, _, _, hr, _⟩ | ⟨_, _, hr, _⟩
  · rw [hr] at h; exact absurd h (by simp)
  · rw [hr] at h; exact absurd h (by simp)
  · rw [hr]

/-- A `Close` that returns no error found the file open, emptied the buffer into it and
closed it; size and path are as before. -/
theorem Close_ok (s : store) (h : (Close s).2 = none) :
    (Close s).1.File.data = s.File.data ++ s.buf.buf ∧ (Close s).1.buf.buf = [] ∧
      (Close s).1.File.closed = true ∧ (Close s).1.buf.err = none ∧
      (Close s).1.File.linked = s.File.linked ∧ (Close s).1.buf.size = s.buf.size ∧
      s.File.closed = false := by
  have hfr := Writer.Flush_frame s.buf s.File
  cases hf : (s.buf.Flush s.File).2.2 with
  | some e => simp [Close, hf] at h
  | none =>
    obtain ⟨he, hb, hd, _⟩ := Writer.Flush_ok s.buf s.File hf
    cases hc : (s.buf.Flush s.File).2.1.closed with
    | true => simp [Close, hf, OsFile.Close, hc] at h
    | false =>
      refine ⟨?_, ?_, ?_, ?_, ?_, ?_, ?_⟩
      · simp only [Close, hf, OsFile.Close, hc, Bool.false_eq_true, if_false]; exact hd
      · simp only [Close, hf, OsFile.Close, hc, Bool.false_eq_true, if_false]; rw [hb]
      · simp only [Close, hf, OsFile.Close, hc, Bool.false_eq_true, if_false]
      · simp only [Close, hf, OsFile.Close, hc, Bool.false_eq_true, if_false]; rw [hb]; exact he
      · simp only [Close, hf, OsFile.Close, hc, Bool.false_eq_true, if_false]; exact hfr.2.2
      · simp only [Close, hf, OsFile.Close, hc, Bool.false_eq_true, if_false]; rw [hb]
      · rw [← hfr.2.1]; exact hc

/-- Claim C11. Reopen resumes correctly: for a reachable store of size `s.size` on which
`Close` succeeds, `newStore` on any handle `g` to the same file (the same bytes under the
same path) returns a store of size `s.size`, and the first successful `Append` on that store,
whatever calls that are not successful appends come before it, returns position `s.size`. -/
theorem C11_reopen (s : store) (g : OsFile) (ops : List Op) (q : List Byte)
    (hs : Reachable s) (hclose : (Close s).2 = none)
    (hdata : g.data = (Close s).1.File.data) (hlink : g.linked = (Close s).1.File.linked) :
    ∃ s2, newStore g = (some s2, none) ∧ s2.size = s.size ∧
      (noneAppended s2 ops = true → (Append (run s2 ops) q).2.2.2 = none →
        (Append (run s2 ops) q).2.2.1 = s.size) := by
  have hinv := hs.inv
  obtain ⟨hcd, _, _, _, hcl, _, _⟩ := Close_ok s hclose
  have hd : g.data = logical s := by rw [hdata, hcd]; rfl
  have hl : g.linked = true := by rw [hlink, hcl]; exact hs.linked
  refine ⟨_, newStore_linked g hl, ?_, ?_⟩
  · simp only; rw [hd, hinv.size_eq]
  · intro hq hok
    rw [Append_pos _ q hok, run_size ops _ hq]
    simp only; rw [hd, hinv.size_eq]

/-- Witness of C11: the store holding "hello" is closed, its file reopened, and after a read
the next append lands at position 13. -/
theorem C11_reopen_witness :
    (Append emptyStore hello).1.size = 13 ∧
      ∃ s2, newStore (reopen (Close (Append emptyStore hello).1).1.File) = (some s2, none) ∧
        s2.size = (Append emptyStore hello).1.size ∧
        (noneAppended s2 [Op.read 0] = true →
          (Append (run s2 [Op.read 0]) world).2.2.2 = none →
          (Append (run s2 [Op.read 0]) world).2.2.1 = (Append emptyStore hello).1.size) :=
  ⟨by decide, C11_reopen (Append emptyStore hello).1
    (reopen (Close (Append emptyStore hello).1).1.File) [Op.read 0] world
    (Reachable.append emptyStore hello reachable_emptyStore) (by decide) rfl rfl⟩

/-- Claim C12. Close flushes everything: in every store state, with file bytes `F` and
buffered bytes `B`, a successful `Close` leaves the file holding `F ++ B`, the write buffer
empty, and the file closed. -/
theorem C12_close_flushes (s : store) (h : (Close s).2 = none) :
    (Close s).1.File.data = s.File.data ++ s.buf.buf ∧ (Close s).1.buf.buf = [] ∧
      (Close s).1.File.closed = true := by
  obtain ⟨hd, hb, hc, _⟩ := Close_ok s h
  exact ⟨hd, hb, hc⟩

/-- Witness of C12: the record of "hello", only buffered before, is in the file after
`Close`. -/
theorem C12_close_flushes_witness :
    (Append emptyStore hello).1.File.data = [] ∧
      (Append emptyStore hello).1.buf.buf = [0, 0, 0, 0, 0, 0, 0, 5, 104, 101, 108, 108, 111] ∧
      ((Close (Append emptyStore hello).1).1.File.data =
          (Append emptyStore hello).1.File.data ++ (Append emptyStore hello).1.buf.buf ∧
        (Close (Append emptyStore hello).1).1.buf.buf = [] ∧
        (Close (Append emptyStore hello).1).1.File.closed = true) :=
  ⟨by decide, by decide, C12_close_flushes (Append emptyStore hello).1 (by decide)⟩

/-- Claim C13. Construction: when the stat call succeeds with length `n`, `newStore` returns
a store bound to the file, with an empty write buffer and `size = n` (as a `uint64`); when
the stat call fails, `newStore` returns no store and the error of the stat call. -/
theorem C13_construction (f : OsFile) :
    (∀ n, f.Stat = (some n, none) →
        newStore f =
            (some
              { File := f
                buf := { err := none, buf := [], size := defaultBufSize }
                size := n % 2 ^ 64 }, none) ∧
          n = f.data.length ∧ (n < 2 ^ 64 → n % 2 ^ 64 = n)) ∧
      (∀ e, f.Stat.2 = some e → newStore f = (none, some e)) := by
  refine ⟨fun n hn => ?_, fun e he => ?_⟩
  · refine ⟨?_, ?_, fun hlt => Nat.mod_eq_of_lt hlt⟩
    · simp only [newStore, hn, Writer.NewWriter]
    · unfold OsFile.Stat at hn
      split at hn
      · simp only [Prod.mk.injEq, Option.some.injEq, and_true] at hn; exact hn.symm
      · simp at hn
  · unfold OsFile.Stat at he
    unfold newStore OsFile.Stat
    split at he
    · simp at he
    · rename_i hl
      simp only [Option.some.injEq] at he
      simp only [hl, Bool.false_eq_true, if_false, he]

/-- Witness of C13: over the empty file the store has size 0 and an empty buffer; over a
path that no longer resolves there is no store, only the error. -/
theorem C13_construction_witness :
    newStore emptyFile = (some emptyStore, none) ∧
      newStore goneFile = (none, some Error.ErrNotExist) ∧
      newStore (reopen (Close (Append emptyStore hello).1).1.File) =
        (some
          { File := reopen (Close (Append emptyStore hello).1).1.File
            buf := { err := none, buf := [], size := defaultBufSize }
            size := 13 % 2 ^ 64 }, none) :=
  ⟨by decide, (C13_construction goneFile).2 Error.ErrNotExist (by decide),
    ((C13_construction (reopen (Close (Append emptyStore hello).1).1.File)).1 13
      (by decide)).1⟩

/-- Claim C14. Flush failures are surfaced: in every store state in which the flush of the
write buffer fails with error `e`, `Read` returns `(nil, e)`, `ReadAt` returns `(0, e)` and
leaves the buffer of the caller untouched, and `Close` returns `e`; in all three the store
is left as the failed flush left it: no file read was made, the file was not closed, and
the logical contents are as before. -/
theorem C14_flush_failure (s : store) (e : Error) (h : (s.buf.Flush s.File).2.2 = some e) :
    (∀ pos, Read s pos = (afterFlush s, ReadResult.ret none (some e))) ∧
      (∀ p off, ReadAt s p off = (afterFlush s, p, 0, some e)) ∧
      Close s = (afterFlush s, some e) ∧
      (afterFlush s).File.closed = s.File.closed ∧
      logical (afterFlush s) = logical s := by
  refine ⟨fun pos => ?_, fun p off => ?_, ?_, ?_, ?_⟩
  · simp only [Read, h, afterFlush]
  · simp only [ReadAt, h, afterFlush]
  · simp only [Close, h, afterFlush]
  · exact (Writer.Flush_frame s.buf s.File).2.1
  · exact Writer.Flush_logical s.buf s.File

/-- Witness of C14: on the closed store with "hello" still in the buffer the flush fails
because the file is closed, and `Read`, `ReadAt` and `Close` return that error. -/
theorem C14_flush_failure_witness :
    (closedHello.buf.Flush closedHello.File).2.2 = some Error.ErrClosed ∧
      (Read closedHello 0).2 = ReadResult.ret none (some Error.ErrClosed) ∧
      (ReadAt closedHello (make 8) 0).2 = (make 8, 0, some Error.ErrClosed) ∧
      (Close closedHello).2 = some Error.ErrClosed :=
  ⟨by decide,
    congrArg Prod.snd ((C14_flush_failure closedHello Error.ErrClosed (by decide)).1 0),
    congrArg Prod.snd
      ((C14_flush_failure closedHello Error.ErrClosed (by decide)).2.1 (make 8) 0),
    congrArg Prod.snd (C14_flush_failure closedHello Error.ErrClosed (by decide)).2.2.1⟩

/-- Counterexample to C15 as stated: from `newStore` over the empty file, `Close` and then
an `Append` of 4089 bytes, which fails. The length field and 4088 bytes of the payload
stay in the write buffer, the file is empty and the size is still 0. -/
theorem C15_counterexample :
    newStore emptyFile = (some emptyStore, none) ∧
      (Close emptyStore).2 = none ∧
      (Append (Close emptyStore).1 big).2 = (0, 0, some Error.ErrClosed) ∧
      (run emptyStore [Op.close, Op.append big]).size = 0 ∧
      (run emptyStore [Op.close, Op.append big]).File.data.length = 0 ∧
      (run emptyStore [Op.close, Op.append big]).buf.buf.length = 4096 ∧
      (run emptyStore [Op.close, Op.append big]).size ≠
        (run emptyStore [Op.close, Op.append big]).File.data.length +
          (run emptyStore [Op.close, Op.append big]).buf.buf.length :=
  ⟨by decide, by decide, by decide!, by decide!, by decide!, by decide!, by decide!⟩

theorem step_size_eq (s : store) (op : Op) (hop : noAppendFailed s [op] = true)
    (h : s.size = (logical s).length % 2 ^ 64) :
    (step s op).size = (logical (step s op)).length % 2 ^ 64 := by
  cases op with
  | append p =>
    have hok : (Append s p).2.2.2 = none := by
      simpa [noAppendFailed] using hop
    rcases Append_cases s p with ⟨e, _, hr, _⟩ | ⟨e, _, _, hr, _⟩ | ⟨_, _, _, hs⟩
    · rw [hr] at hok; exact absurd hok (by simp)
    · rw [hr] at hok; exact absurd hok (by simp)
    · simp only [step]
      rw [hs, Append_logical s p hok, h, List.length_append, record_length, lenWidth]
      omega
  | read pos =>
    rw [step_logical s (Op.read pos) (by intro p hp; cases hp),
      step_size s (Op.read pos) rfl]; exact h
  | readAt p off =>
    rw [step_logical s (Op.readAt p off) (by intro p hp; cases hp),
      step_size s (Op.readAt p off) rfl]; exact h
  | close =>
    rw [step_logical s Op.close (by intro p hp; cases hp), step_size s Op.close rfl]; exact h

theorem noAppendFailed_cons (s : store) (op : Op) (ops : List Op)
    (h : noAppendFailed s (op :: ops) = true) :
    noAppendFailed s [op] = true ∧ noAppendFailed (step s op) ops = true := by
  cases op <;> simp_all [noAppendFailed]

theorem run_size_eq (ops : List Op) : ∀ s : store, noAppendFailed s ops = true →
    s.size = (logical s).length % 2 ^ 64 →
    (run s ops).size = (logical (run s ops)).length % 2 ^ 64 := by
  induction ops with
  | nil => intro s _ h; exact h
  | cons op ops ih =>
    intro s hok h
    obtain ⟨h1, h2⟩ := noAppendFailed_cons s op ops hok
    have := ih (step s op) h2 (step_size_eq s op h1 h)
    simpa only [run, List.foldl_cons] using this

/-- Claim C15, amended. Size invariant: in every state reached from `newStore` by calls of
`Append`, `Read`, `ReadAt` and `Close` among which no `Append` failed (reads and closes may
have failed), the size is the length of the file plus the number of buffered bytes, as a
`uint64`, and as plain numbers when that length is below `2 ^ 64`. -/
theorem C15_size_invariant (f : OsFile) (s0 : store) (ops : List Op)
    (hnew : newStore f = (some s0, none)) (hok : noAppendFailed s0 ops = true) :
    (run s0 ops).size =
        ((run s0 ops).File.data.length + (run s0 ops).buf.buf.length) % 2 ^ 64 ∧
      ((run s0 ops).File.data.length + (run s0 ops).buf.buf.length < 2 ^ 64 →
        (run s0 ops).size = (run s0 ops).File.data.length + (run s0 ops).buf.buf.length) := by
  obtain ⟨hs0, _⟩ := newStore_ok f s0 hnew
  have h0 : s0.size = (logical s0).length % 2 ^ 64 := by
    rw [hs0]; simp [logical, Writer.NewWriter]
  have key := run_size_eq ops s0 hok h0
  simp only [logical, List.length_append] at key
  exact ⟨key, fun hlt => by rw [key, Nat.mod_eq_of_lt hlt]⟩

/-- Witness of C15, amended: appends, a read past the end, a close and a read after it; no
append failed, and the size is the 27 bytes of the two records. -/
theorem C15_size_invariant_witness :
    (run emptyStore [Op.append hello, Op.read 100, Op.append world, Op.close, Op.read 0]).size
        = 27 ∧
      (Read (run emptyStore [Op.append hello, Op.read 100, Op.append world, Op.close]) 0).2 =
        ReadResult.ret none (some Error.ErrClosed) ∧
      (run emptyStore
          [Op.append hello, Op.read 100, Op.append world, Op.close, Op.read 0]).size =
        (run emptyStore
          [Op.append hello, Op.read 100, Op.append world, Op.close, Op.read 0]).File.data.length +
        (run emptyStore
          [Op.append hello, Op.read 100, Op.append world, Op.close, Op.read 0]).buf.buf.length :=
  ⟨by decide, by decide,
    (C15_size_invariant emptyFile emptyStore
      [Op.append hello, Op.read 100, Op.append world, Op.close, Op.read 0]
      (by decide) (by decide)).2 (by decide)⟩

theorem readFrom_closed (f : OsFile) (pos : Nat) (hc : f.closed = true) :
    ∃ e, readFrom f pos = ReadResult.ret none (some e) := by
  obtain ⟨e, he⟩ := OsFile.ReadAt_closed f (make lenWidth) (toInt64 pos) hc
    (by rw [make_length]; decide)
  exact ⟨e, by unfold readFrom; rw [he]⟩

/-- On a closed file `Read` returns an error and no payload. -/
theorem Read_on_closed (s : store) (pos : Nat) (hc : s.File.closed = true) :
    ∃ e, (Read s pos).2 = ReadResult.ret none (some e) := by
  cases hf : (s.buf.Flush s.File).2.2 with
  | some e => exact ⟨e, by simp only [Read, hf]⟩
  | none =>
    have hcl : (s.buf.Flush s.File).2.1.closed = true := by
      rw [(Writer.Flush_frame s.buf s.File).2.1]; exact hc
    obtain ⟨e, he⟩ := readFrom_closed _ pos hcl
    exact ⟨e, by rw [Read_of_flush s pos hf]; exact he⟩

/-- On a closed file `Close` returns an error. -/
theorem Close_on_closed (s : store) (hc : s.File.closed = true) :
    ∃ e, (Close s).2 = some e := by
  cases hf : (s.buf.Flush s.File).2.2 with
  | some e => exact ⟨e, by simp only [Close, hf]⟩
  | none =>
    have hcl : (s.buf.Flush s.File).2.1.closed = true := by
      rw [(Writer.Flush_frame s.buf s.File).2.1]; exact hc
    exact ⟨Error.ErrClosed, by simp only [Close, hf, OsFile.Close, hcl, if_true]⟩

/-- On a closed file `ReadAt` returns an error unless it is asked for no byte at a valid
offset. -/
theorem ReadAt_on_closed (s : store) (p : List Byte) (off : Int) (hc : s.File.closed = true)
    (h : 0 < p.length ∨ off < 0) : ∃ e, (ReadAt s p off).2.2.2 = some e := by
  cases hf : (s.buf.Flush s.File).2.2 with
  | some e => exact ⟨e, by simp only [ReadAt, hf]⟩
  | none =>
    have hcl : (s.buf.Flush s.File).2.1.closed = true := by
      rw [(Writer.Flush_frame s.buf s.File).2.1]; exact hc
    rcases h with h | h
    · obtain ⟨e, he⟩ := OsFile.ReadAt_closed _ p off hcl h
      exact ⟨e, by simp only [ReadAt, hf, he]⟩
    · exact ⟨Error.ErrNegativeOffset, by
        simp only [ReadAt, hf, OsFile.ReadAt_neg _ p off h]⟩

/-- On a closed file `Append` fails once the writer has an error or the record does not fit
in the free space of the buffer. -/
theorem Append_on_closed (s : store) (p : List Byte) (hc : s.File.closed = true)
    (h : s.buf.err ≠ none ∨ s.buf.size < s.buf.buf.length + lenWidth + p.length) :
    ∃ e, (Append s p).2.2.2 = some e := by
  have hw : lenWidth = 8 := rfl
  have fail1 : ∀ e, (s.buf.Write s.File (enc.PutUint64 (p.length % 2 ^ 64))).2.2.2 = some e →
      ∃ e, (Append s p).2.2.2 = some e := fun e he =>
    ⟨e, by rw [(Append_of_len_err s p e he).1]⟩
  cases he : s.buf.err with
  | some e0 => exact fail1 e0 (Writer.Write_sticky _ _ _ e0 he)
  | none =>
    have hsz := h.resolve_left (by rw [he]; simp)
    by_cases h8 : s.buf.Available < (enc.PutUint64 (p.length % 2 ^ 64)).length
    · obtain ⟨e, hfe⟩ := Writer.Write_closed_overflow _ _ _ hc he h8
      exact fail1 e hfe
    · simp only [Writer.Available, enc.PutUint64_length] at h8
      have hfit := Writer.Write_fits s.buf s.File (enc.PutUint64 (p.length % 2 ^ 64)) he
        (by simp only [Writer.Available, enc.PutUint64_length]; omega)
      have h1 : (binaryWrite s.buf s.File (p.length % 2 ^ 64)).2.2 = none := by
        simp only [binaryWrite, hfit]
      have hb : (binaryWrite s.buf s.File (p.length % 2 ^ 64)).1 =
          { s.buf with buf := s.buf.buf ++ enc.PutUint64 (p.length % 2 ^ 64) } := by
        simp only [binaryWrite, hfit]
      have hfl : (binaryWrite s.buf s.File (p.length % 2 ^ 64)).2.1 = s.File := by
        simp only [binaryWrite, hfit]
      obtain ⟨e, hfe⟩ := Writer.Write_closed_overflow
        (binaryWrite s.buf s.File (p.length % 2 ^ 64)).1
        (binaryWrite s.buf s.File (p.length % 2 ^ 64)).2.1 p (by rw [hfl]; exact hc)
        (by rw [hb]; exact he)
        (by
          rw [hb]
          simp only [Writer.Available, List.length_append, enc.PutUint64_length]
          omega)
      exact ⟨e, by rw [(Append_of_data_err s p e h1 hfe).1]⟩

/-- An `Append` whose record fits in the free space of the buffer of a writer without error
succeeds without a write to the file, open or closed. -/
theorem Append_fits (s : store) (p : List Byte) (he : s.buf.err = none)
    (h : s.buf.buf.length + lenWidth + p.length ≤ s.buf.size) :
    (Append s p).2.2.2 = none ∧ (Append s p).1.File = s.File := by
  have hw : lenWidth = 8 := rfl
  have hfit := Writer.Write_fits s.buf s.File (enc.PutUint64 (p.length % 2 ^ 64)) he
    (by simp only [Writer.Available, enc.PutUint64_length]; omega)
  have h1 : (binaryWrite s.buf s.File (p.length % 2 ^ 64)).2.2 = none := by
    simp only [binaryWrite, hfit]
  have hb : (binaryWrite s.buf s.File (p.length % 2 ^ 64)).1 =
      { s.buf with buf := s.buf.buf ++ enc.PutUint64 (p.length % 2 ^ 64) } := by
    simp only [binaryWrite, hfit]
  have hfl : (binaryWrite s.buf s.File (p.length % 2 ^ 64)).2.1 = s.File := by
    simp only [binaryWrite, hfit]
  have hfit2 := Writer.Write_fits
    { s.buf with buf := s.buf.buf ++ enc.PutUint64 (p.length % 2 ^ 64) } s.File p he
    (by simp only [Writer.Available, List.length_append, enc.PutUint64_length]; omega)
  have h2 : ((binaryWrite s.buf s.File (p.length % 2 ^ 64)).1.Write
      (binaryWrite s.buf s.File (p.length % 2 ^ 64)).2.1 p).2.2.2 = none := by
    rw [hb, hfl, hfit2]
  refine ⟨by rw [(Append_of_ok s p h1 h2).1], ?_⟩
  simp only [Append, h1, h2]
  rw [hb, hfl, hfit2]

/-- Counterexample to C16 as stated: `Close` succeeds on the store `newStore` returns over
the empty file; after it `Append "hello"` returns `(13, 0, nil)` (the record only enters the
write buffer) and `ReadAt` of an empty buffer returns `(0, nil)`. -/
theorem C16_counterexample :
    newStore emptyFile = (some emptyStore, none) ∧ (Close emptyStore).2 = none ∧
      (Close emptyStore).1.File.closed = true ∧
      (Append (Close emptyStore).1 hello).2 = (13, 0, none) ∧
      (ReadAt (Close emptyStore).1 [] 0).2 = ([], 0, none) ∧
      ¬ ∃ e, (Append (Close emptyStore).1 hello).2.2.2 = some e :=
  ⟨by decide, by decide, by decide, by decide, by decide, by
    intro ⟨e, he⟩
    have h : (Append (Close emptyStore).1 hello).2.2.2 = none := by decide
    rw [h] at he
    cases he⟩

/-- Claim C16, amended. Use after Close: for a store from `newStore` on which `Close` has
returned successfully, and in every state `s` reached from there by further calls, the file
stays closed; `Read` and `Close` return a non-nil error; `ReadAt` returns a non-nil error
for a non-empty buffer or a negative offset; `Append` returns a non-nil error once the
writer holds an error or the record does not fit in the free space of the write buffer.
Right after the `Close` the buffer is empty, so `Append` fails exactly when `8 + len(p)`
exceeds the 4096 bytes of the buffer and succeeds otherwise, no byte reaching the file. -/
theorem C16_after_close (s0 s : store) (ops : List Op) (hr : Reachable s0)
    (hclose : (Close s0).2 = none) (hs : s = run (Close s0).1 ops) :
    s.File.closed = true ∧
      (∀ pos, ∃ e, (Read s pos).2 = ReadResult.ret none (some e)) ∧
      (∃ e, (Close s).2 = some e) ∧
      (∀ p off, 0 < p.length ∨ off < 0 → ∃ e, (ReadAt s p off).2.2.2 = some e) ∧
      (∀ p, s.buf.err ≠ none ∨ s.buf.size < s.buf.buf.length + lenWidth + p.length →
        ∃ e, (Append s p).2.2.2 = some e) ∧
      (∀ p, defaultBufSize < lenWidth + p.length →
        ∃ e, (Append (Close s0).1 p).2.2.2 = some e) ∧
      (∀ p, lenWidth + p.length ≤ defaultBufSize →
        (Append (Close s0).1 p).2.2.2 = none ∧
          (Append (Close s0).1 p).1.File = (Close s0).1.File) := by
  obtain ⟨_, hb, hc, he, _, hz, _⟩ := Close_ok s0 hclose
  have hcap : (Close s0).1.buf.size = defaultBufSize := hz.trans hr.inv.cap
  have hcs : s.File.closed = true := by rw [hs]; exact run_closed ops _ hc
  refine ⟨hcs, fun pos => Read_on_closed s pos hcs, Close_on_closed s hcs,
    fun p off h => ReadAt_on_closed s p off hcs h, fun p h => Append_on_closed s p hcs h,
    fun p h => ?_, fun p h => ?_⟩
  · exact Append_on_closed _ p hc (Or.inr (by rw [hcap, hb]; simpa using h))
  · exact Append_fits _ p he (by rw [hcap, hb]; simpa using h)

/-- Witness of C16, amended, on the store closed right after `newStore`, then used for an
append of "hello": reads and a second close fail, an append of 4089 bytes fails, and the
append of "hello" right after the close succeeds. -/
theorem C16_after_close_witness :
    (∃ e, (Read (run (Close emptyStore).1 [Op.append hello]) 0).2 =
        ReadResult.ret none (some e)) ∧
      (∃ e, (Close (run (Close emptyStore).1 [Op.append hello])).2 = some e) ∧
      (∃ e, (Append (Close emptyStore).1 big).2.2.2 = some e) ∧
      (Append (Close emptyStore).1 hello).2.2.2 = none :=
  ⟨(C16_after_close emptyStore _ [Op.append hello] reachable_emptyStore (by decide) rfl).2.1 0,
    (C16_after_close emptyStore _ [Op.append hello] reachable_emptyStore (by decide) rfl).2.2.1,
    (C16_after_close emptyStore _ [] reachable_emptyStore (by decide) rfl).2.2.2.2.2.1 big
      (by decide!),
    ((C16_after_close emptyStore _ [] reachable_emptyStore (by decide) rfl).2.2.2.2.2.2 hello
      (by decide)).1⟩

/-- Claim C17. ReadAt short read: in a reachable state with logical contents `D` of length
`n`, for every offset `off ≥ 0` and every buffer of length `k > 0` with `off + k > n`,
`ReadAt` returns the error `io.EOF` and the count `n - off` (which is 0 when `off ≥ n`); the
first `n - off` bytes of the buffer hold `D` from `off` on and the rest of the buffer is as
it was. -/
theorem C17_readAt_short (s : store) (buf : List Byte) (off : Int) (hs : Reachable s)
    (hoff : 0 ≤ off) (hk : 0 < buf.length)
    (hshort : (logical s).length < off.toNat + buf.length) :
    (ReadAt s buf off).2 =
      ((logical s).drop off.toNat ++ buf.drop ((logical s).length - off.toNat),
        (logical s).length - off.toNat, some Error.EOF) := by
  have hinv := hs.inv
  rw [ReadAt_open s buf off hinv]
  have hneg : ¬ off < 0 := by omega
  have hk0 : ¬ buf.length = 0 := by omega
  have htake : ((logical s).drop off.toNat).take buf.length = (logical s).drop off.toNat := by
    apply List.take_of_length_le
    rw [List.length_drop]; omega
  have hlt : (logical s).length - off.toNat < buf.length := by omega
  simp only [OsFile.ReadAt, hneg, hk0, (Inv_flushed s hinv).opened, flushed_data, htake,
    Bool.false_eq_true, if_false, List.length_drop, hlt, if_true]

/-- Witness of C17: the store holds the 13 bytes of the record of "hello"; `ReadAt` of an
8-byte buffer at offset 10 reads the last 3 bytes and reports `io.EOF`, and at offset 20
reads nothing. -/
theorem C17_readAt_short_witness :
    (ReadAt (Append emptyStore hello).1 (make 8) 10).2 =
        ([108, 108, 111, 0, 0, 0, 0, 0], 3, some Error.EOF) ∧
      (ReadAt (Append emptyStore hello).1 (make 8) 20).2 = (make 8, 0, some Error.EOF) ∧
      (ReadAt (Append emptyStore hello).1 (make 8) 10).2 =
        ((logical (Append emptyStore hello).1).drop (10 : Int).toNat ++
            (make 8).drop ((logical (Append emptyStore hello).1).length - (10 : Int).toNat),
          (logical (Append emptyStore hello).1).length - (10 : Int).toNat, some Error.EOF) :=
  ⟨by decide, by decide,
    C17_readAt_short (Append emptyStore hello).1 (make 8) 10
      (Reachable.append emptyStore hello reachable_emptyStore) (by decide) (by decide)
      (by decide)⟩

theorem flushed_flushed (s : store) : flushed (flushed s) = flushed s := by
  simp [flushed]

/-- Claim C18. Reads are observationally pure: in a reachable state a call of `Read` or of
`ReadAt`, whatever it returns, leaves the size and the logical contents as they were and
only moves the buffered bytes into the file; the same `Read` or `ReadAt` made again, also
after other reads, returns the same result. -/
theorem C18_reads_pure (s : store) (pos : Nat) (p : List Byte) (off : Int)
    (hs : Reachable s) :
    ((Read s pos).1.size = s.size ∧ logical (Read s pos).1 = logical s ∧
        (Read s pos).1.File.data = s.File.data ++ s.buf.buf ∧ (Read s pos).1.buf.buf = []) ∧
      ((ReadAt s p off).1.size = s.size ∧ logical (ReadAt s p off).1 = logical s ∧
        (ReadAt s p off).1.File.data = s.File.data ++ s.buf.buf ∧
        (ReadAt s p off).1.buf.buf = []) ∧
      (Read (Read s pos).1 pos).2 = (Read s pos).2 ∧
      (Read (ReadAt s p off).1 pos).2 = (Read s pos).2 ∧
      (ReadAt (ReadAt s p off).1 p off).2 = (ReadAt s p off).2 ∧
      (ReadAt (Read s pos).1 p off).2 = (ReadAt s p off).2 := by
  have hinv := hs.inv
  have hfi := Inv_flushed s hinv
  have hr := Read_open s pos hinv
  have ha := ReadAt_open s p off hinv
  have hst1 : (Read s pos).1 = flushed s := by rw [hr]
  have hst2 : (ReadAt s p off).1 = flushed s := by rw [ha]
  refine ⟨?_, ?_, ?_, ?_, ?_, ?_⟩
  · rw [hst1]; exact ⟨rfl, logical_flushed s, rfl, rfl⟩
  · rw [hst2]; exact ⟨rfl, logical_flushed s, rfl, rfl⟩
  · rw [hst1, Read_open _ pos hfi, flushed_flushed, hr]
  · rw [hst2, Read_open _ pos hfi, flushed_flushed, hr]
  · rw [hst2, ReadAt_open _ p off hfi, flushed_flushed, ha]
  · rw [hst1, ReadAt_open _ p off hfi, flushed_flushed, ha]

/-- Witness of C18 on the store with "hello" in its buffer: a `Read` moves the 13 bytes into
the file, keeps size 13, and returns "hello" both times; a failing `Read` past the end is
just as pure. -/
theorem C18_reads_pure_witness :
    (Append emptyStore hello).1.buf.buf.length = 13 ∧
      (Read (Append emptyStore hello).1 0).1.File.data.length = 13 ∧
      (Read (Append emptyStore hello).1 0).2 = ReadResult.ret (some hello) none ∧
      (Read (Read (Append emptyStore hello).1 0).1 0).2 = (Read (Append emptyStore hello).1 0).2 ∧
      (Read (Append emptyStore hello).1 40).1.size = (Append emptyStore hello).1.size :=
  ⟨by decide, by decide, by decide,
    (C18_reads_pure (Append emptyStore hello).1 0 (make 8) 0
      (Reachable.append emptyStore hello reachable_emptyStore)).2.2.1,
    (C18_reads_pure (Append emptyStore hello).1 40 (make 8) 0
      (Reachable.append emptyStore hello reachable_emptyStore)).1.1⟩

end Proglog
